import Mathlib

/-!
Verification of the legal-document extraction pipeline in
`src/internal/extractor/bridge_bin/pdf_bridge.py`.

The pipeline's string functions are embedded shallowly over `List Char`
(`Str`).  Each definition mirrors one Python function or one regular
expression occurring in the source; the regular expressions used by the
source are all deterministic in the sense that every quantifier operates on
a character class disjoint from the class of the character that has to
follow it, so greedy or lazy matching reduces to maximal or minimal munch,
which the recursive functions below implement directly.  Where a regex
backtracks in a way that matters (the repeated-phrase search of
`is_seal_like_text`), the embedding quantifies over the backtracking
choices explicitly.

Unicode character classes of Python (`\s`, `\d`, `\w`) are embedded as
decidable predicates covering the code points that this corpus and the
source's patterns can produce (ASCII, CJK ideographs, fullwidth forms).
-/

abbrev Str := List Char

/-- Whitespace as Python `str.isspace` / regex `\s` over `str`, on code
points: space, tab, newline, carriage return, vertical tab, form feed, the
file/group/record/unit separators, next line, no-break space, ogham space,
the U+2000 block, line and paragraph separators, narrow and mathematical
spaces, ideographic space. -/
def isWS (c : Char) : Bool :=
  c.toNat = 32 || c.toNat = 9 || c.toNat = 10 || c.toNat = 13 ||
  c.toNat = 11 || c.toNat = 12 ||
  (0x1c ≤ c.toNat && c.toNat ≤ 0x1f) || c.toNat = 0x85 || c.toNat = 0xa0 ||
  c.toNat = 0x1680 || (0x2000 ≤ c.toNat && c.toNat ≤ 0x200a) ||
  c.toNat = 0x2028 || c.toNat = 0x2029 || c.toNat = 0x202f ||
  c.toNat = 0x205f || c.toNat = 0x3000

/-- Python `\d` over `str` (Unicode decimal digits: ASCII `0`-`9` and the
fullwidth forms, expressed on code points). -/
def isPyDigit (c : Char) : Bool :=
  (48 ≤ c.toNat && c.toNat ≤ 57) || (0xff10 ≤ c.toNat && c.toNat ≤ 0xff19)

/-- Python `\w` (word character): letters, digits, underscore; covers ASCII,
CJK ideographs and fullwidth alphanumerics. -/
def isWordChar (c : Char) : Bool :=
  ('0' ≤ c && c ≤ '9') || ('A' ≤ c && c ≤ 'Z') || ('a' ≤ c && c ≤ 'z') || c = '_' ||
  (0x4e00 ≤ c.toNat && c.toNat ≤ 0x9fff) || (0x3400 ≤ c.toNat && c.toNat ≤ 0x4dbf) ||
  (0xff10 ≤ c.toNat && c.toNat ≤ 0xff19) ||
  (0xff21 ≤ c.toNat && c.toNat ≤ 0xff3a) || (0xff41 ≤ c.toNat && c.toNat ≤ 0xff5a)

/-- `s.strip()`: drop whitespace from both ends. -/
def trimWS (l : Str) : Str := ((l.dropWhile isWS).reverse.dropWhile isWS).reverse

/-- `''.join(s.split())`: remove every whitespace character. -/
def removeWS (l : Str) : Str := l.filter (fun c => !isWS c)

/-- `p` is a prefix of `l`. -/
def startsWithList : Str → Str → Bool
  | [], _ => true
  | _ :: _, [] => false
  | p :: ps, c :: cs => p = c && startsWithList ps cs

/-- Contiguous-substring test, Python's `p in l`. -/
def containsSub (p l : Str) : Bool :=
  startsWithList p l ||
    (match l with
     | [] => false
     | _ :: t => containsSub p t)

/-! ### Noise Classifier: `is_seal_like_text` (pdf_bridge.py lines 75-108) -/

/-- `re.search(r'(.)\1{2,}')`: three consecutive equal characters; `.` does
not match a newline. -/
def hasRun3 : Str → Bool
  | a :: b :: c :: t => (a = b && b = c && a ≠ '\n') || hasRun3 (b :: c :: t)
  | _ => false

def isUpperLatin (c : Char) : Bool := 'A' ≤ c && c ≤ 'Z'

/-- `re.search(r'[A-Z]{3,}')`. -/
def hasUpper3 : Str → Bool
  | a :: b :: c :: t =>
    (isUpperLatin a && isUpperLatin b && isUpperLatin c) || hasUpper3 (b :: c :: t)
  | _ => false

/-- Character class `[0-9A-Za-z\s]` (ASCII ranges plus whitespace). -/
def isLatinDigitWSChar (c : Char) : Bool :=
  ('0' ≤ c && c ≤ '9') || ('A' ≤ c && c ≤ 'Z') || ('a' ≤ c && c ≤ 'z') || isWS c

/-- Character class `[A-Z\d]`. -/
def isUpperOrDigit (c : Char) : Bool := isUpperLatin c || isPyDigit c

/-- The fixed watermark keyword list at pdf_bridge.py line 84. -/
def sealKeywords : List Str :=
  [['章', ' ', 'Z'], ['签', ' ', 'Y'], ['F', ' ', 'F', ' ', 'F'],
   ['印', '章'], ['子', ' ', 'C'], ['电', ' ', 'B']]

/-- Match of `(.{2,})\s*\1\s*\1` anchored at the start of `l`: a phrase of 2+
non-newline characters repeated three times with optional whitespace between.
The boolean quantifies over group length and over the lengths at which the
two `\s*` stop (backtracking can stop them anywhere inside a whitespace run,
since the group itself may begin with whitespace). -/
def repPhraseAt (l : Str) : Bool :=
  (List.range l.length).any fun gl0 =>
    let gl := gl0 + 2
    let g := l.take gl
    gl ≤ l.length && g.all (fun c => c ≠ '\n') &&
      (let rest1 := l.drop gl
       (List.range ((rest1.takeWhile isWS).length + 1)).any fun w1 =>
         startsWithList g (rest1.drop w1) &&
           (let rest2 := rest1.drop (w1 + gl)
            (List.range ((rest2.takeWhile isWS).length + 1)).any fun w2 =>
              startsWithList g (rest2.drop w2)))

/-- `re.search(r'(.{2,})\s*\1\s*\1')`: the anchored match at some position. -/
def hasRepPhrase : Str → Bool
  | [] => false
  | l@(_ :: t) => repPhraseAt l || hasRepPhrase t

/-- `re.match(r'^([A-Z\d]{1,3}\s*){3,}')`: from the start of the line, consume
at least three groups, each 1-3 chars of `[A-Z\d]` followed by a whitespace
run (whitespace and `[A-Z\d]` are disjoint, so each inner `\s*` is forced to
the full run; the trailing `\s*` of the last group is irrelevant). -/
def headGroups : Nat → Str → Nat → Bool
  | _, _, 0 => true
  | 0, _, _ => false
  | fuel + 1, l, need + 1 =>
    [1, 2, 3].any fun k =>
      (l.take k).length = k && (l.take k).all isUpperOrDigit &&
        headGroups fuel ((l.drop k).dropWhile isWS) need

def headPattern (l : Str) : Bool := headGroups (l.length + 1) l 3

/-- `is_seal_like_text` (pdf_bridge.py lines 75-108). -/
def is_seal_like_text (textLine : Str) : Bool :=
  if textLine = [] || (trimWS textLine).length = 0 then true
  else if sealKeywords.any fun kw => containsSub kw textLine then true
  else if hasRun3 textLine then true
  else if hasUpper3 textLine then true
  else if (textLine ≠ [] && textLine.all isLatinDigitWSChar) && (trimWS textLine).length < 20 then true
  else if hasRepPhrase textLine then true
  else if headPattern textLine then true
  else false

/-! ### Noise Scrubber: `clean_watermark_chars` (pdf_bridge.py lines 111-125) -/

/-- The range `[一-龥]` (U+4E00 to U+9FA5). -/
def isCJKUnified (c : Char) : Bool := 0x4e00 ≤ c.toNat && c.toNat ≤ 0x9fa5

/-- `re.sub(r'([一-龥])\1+', r'\1', text)`: a maximal run of 2+ equal CJK
characters is replaced by a single copy. -/
def collapseRepeats : Str → Str
  | a :: b :: t =>
    if isCJKUnified a && a = b then collapseRepeats (b :: t)
    else a :: collapseRepeats (b :: t)
  | l => l

/-- `text.replace(a*3, '')` for a watermark pattern of three equal characters
(scans left to right, resumes after each removed occurrence). -/
def repl3 (a : Char) : Str → Str
  | x :: y :: z :: t =>
    if x = a && y = a && z = a then repl3 a t else x :: repl3 a (y :: z :: t)
  | l => l

/-- `clean_watermark_chars` (pdf_bridge.py lines 111-125): collapse repeats,
then remove the seven literal triple patterns in order. -/
def clean_watermark_chars (text : Str) : Str :=
  (['招', '证', '验', '银', '码', '商', '行']).foldl
    (fun acc a => repl3 a acc) (collapseRepeats text)

/-! ### Paragraph Folder: `smart_merge` (pdf_bridge.py lines 255-292) -/

/-- The ten characters `一二三四五六七八九十`, on code points. -/
def isCJKNumeral (c : Char) : Bool :=
  c.toNat = 0x4e00 || c.toNat = 0x4e8c || c.toNat = 0x4e09 || c.toNat = 0x56db ||
  c.toNat = 0x4e94 || c.toNat = 0x516d || c.toNat = 0x4e03 || c.toNat = 0x516b ||
  c.toNat = 0x4e5d || c.toNat = 0x5341

/-- Character class `[一二三四五六七八九十\d]`. -/
def isNumChar (c : Char) : Bool := isCJKNumeral c || isPyDigit c

/-- Character class `[、．]`. -/
def isSepDot (c : Char) : Bool := c = '、' || c = '．'

/-- Character class `[(（]`. -/
def isOpenBr (c : Char) : Bool := c = '(' || c = '（'

/-- Character class `[)）]`. -/
def isCloseBr (c : Char) : Bool := c = ')' || c = '）'

/-- Character class `[。；？！]`. -/
def isPunctEnd (c : Char) : Bool := c = '。' || c = '；' || c = '？' || c = '！'

/-- The literal placeholder `[LOGICAL_NL]` that `smart_merge` inserts for a
protected line break and later rewrites back into a newline. -/
def PH : Str := ['[', 'L', 'O', 'G', 'I', 'C', 'A', 'L', '_', 'N', 'L', ']']

/-- `text.replace('\r\n', '\n')`. -/
def replCRLF : Str → Str
  | '\r' :: '\n' :: t => '\n' :: replCRLF t
  | c :: t => c :: replCRLF t
  | [] => []

/-- `re.sub(r'\n+', '\n', text)`. -/
def collapseNL : Str → Str
  | '\n' :: '\n' :: t => collapseNL ('\n' :: t)
  | c :: t => c :: collapseNL t
  | [] => []

/-- `re.sub(r'([。；？！])\n', r'\1[LOGICAL_NL]', text)` (step A of
`smart_merge`). -/
def subA : Str → Str
  | c₁ :: c₂ :: t =>
    if c₂ = '\n' && isPunctEnd c₁ then c₁ :: (PH ++ subA t)
    else c₁ :: subA (c₂ :: t)
  | [c] => [c]
  | [] => []

/-- Lookahead for `\s*(?:[一二三四五六七八九十\d]+[、．]|[(（][一二三四五六七八九十\d]+[)）])`
immediately after a `\n`; returns the number of characters the group `\1`
consumes.  The character classes involved are pairwise disjoint, so the
backtracking search is determined by maximal munch. -/
def tryMarker (l : Str) : Option Nat :=
  let ws := l.takeWhile isWS
  let r := l.drop ws.length
  match r with
  | c :: t =>
    if isNumChar c then
      let run := t.takeWhile isNumChar
      match t.drop run.length with
      | s :: _ => if isSepDot s then some (ws.length + 1 + run.length + 1) else none
      | [] => none
    else if isOpenBr c then
      let run := t.takeWhile isNumChar
      if run.length = 0 then none
      else
        match t.drop run.length with
        | s :: _ => if isCloseBr s then some (ws.length + 1 + run.length + 1) else none
        | [] => none
    else none
  | [] => none

/-- `re.sub(r'\n(\s*(?:[一二三四五六七八九十\d]+[、．]|[(（][一二三四五六七八九十\d]+[)）]))', r'[LOGICAL_NL]\1', text)`
(step B of `smart_merge`).  The second argument counts characters that
belong to the already-matched group `\1` and are copied verbatim (`re.sub`
resumes scanning after the whole match). -/
def subBgo : Str → Nat → Str
  | [], _ => []
  | c :: t, k + 1 => c :: subBgo t k
  | c :: t, 0 =>
    if c = '\n' then
      match tryMarker t with
      | some k => PH ++ subBgo t k
      | none => '\n' :: subBgo t 0
    else c :: subBgo t 0

def subB (l : Str) : Str := subBgo l 0

/-- `text.replace('\n', '')`. -/
def dropNL (l : Str) : Str := l.filter (fun c => c ≠ '\n')

/-- `text.replace('[LOGICAL_NL]', '\n')`: scan left to right; at a match of
the 12-character placeholder emit `'\n'` and skip the matched characters
(the second argument counts characters of a match still to discard),
otherwise copy one character. -/
def restoreGo : Str → Nat → Str
  | [], _ => []
  | _ :: t, k + 1 => restoreGo t k
  | c :: t, 0 =>
    if startsWithList PH (c :: t) then '\n' :: restoreGo t 11
    else c :: restoreGo t 0

def restorePH (l : Str) : Str := restoreGo l 0

/-- `text.split('\n')`. -/
def splitNL : Str → List Str
  | [] => [[]]
  | '\n' :: t => [] :: splitNL t
  | c :: t =>
    match splitNL t with
    | h :: r => (c :: h) :: r
    | [] => [[c]]

/-- The per-line cleanup loop of `smart_merge` (lines 283-291):
`trimmed = line.strip(); if trimmed: result.append(''.join(trimmed.split()))`.
A line is kept exactly when it has a non-whitespace character, and the kept
value is the line with all whitespace removed. -/
def cleanLines (ls : List Str) : List Str :=
  (ls.map removeWS).filter (fun l => l ≠ [])

/-- `'\n'.join(parts)`. -/
def joinNL : List Str → Str
  | [] => []
  | [l] => l
  | l :: ls => l ++ '\n' :: joinNL ls

/-- `smart_merge` (pdf_bridge.py lines 255-292). -/
def smart_merge (text : Str) : Str :=
  if text = [] then []
  else
    joinNL
      (cleanLines (splitNL (restorePH (dropNL (subB (subA
        (collapseNL (replCRLF (trimWS text)))))))))

/-! ### Label matching shared by the field extractors -/

/-- Match `k₁\s*k₂\s*…\s*kₙ` at the start of `l`; on success return the rest
of `l`.  The keyword characters are never whitespace, so each `\s*` is the
maximal whitespace run. -/
def matchSpaced : Str → Str → Option Str
  | [], l => some l
  | _ :: _, [] => none
  | [k], c :: t => if k = c then some t else none
  | k :: ks, c :: t => if k = c then matchSpaced ks (t.dropWhile isWS) else none

/-- Match `kw\s*[:：]` at the start of `l`; on success return the suffix
after the colon. -/
def matchLabelColon (kw : Str) (l : Str) : Option Str :=
  match matchSpaced kw l with
  | none => none
  | some rest =>
    match rest.dropWhile isWS with
    | c :: t => if c = ':' || c = '：' then some t else none
    | [] => none

/-- `re.search` for `kw\s*[:：]`: the suffix after the leftmost match. -/
def scanLabelColon (kw : Str) : Str → Option Str
  | [] => none
  | l@(_ :: t) =>
    match matchLabelColon kw l with
    | some rest => some rest
    | none => scanLabelColon kw t

/-- The prefix of `l` before the leftmost match of `kw` (spaced); `none`
when `kw` does not occur. -/
def splitAtSpaced (kw : Str) : Str → Option Str
  | [] => match matchSpaced kw [] with | some _ => some [] | none => none
  | l@(c :: t) =>
    match matchSpaced kw l with
    | some _ => some []
    | none =>
      match splitAtSpaced kw t with
      | some pre => some (c :: pre)
      | none => none

/-! ### Field Extractor: `extract_defendant` (pdf_bridge.py lines 294-335) -/

/-- Character class `[,，、；;、\s]` of the defendant end pattern. -/
def isDefSep (c : Char) : Bool :=
  c = ',' || c = '，' || c = '、' || c = '；' || c = ';' || isWS c

/-- The anchor keywords of the defendant end pattern (line 310), each matched
with `\s*` interspersed. -/
def endKwList : List Str :=
  [['性', '别'], ['生', '日'], ['身', '份', '证'], ['住', '址'],
   ['联', '系', '电', '话'], ['现', '住'], ['案', '由']]

/-- Does `[,，、；;、\s]*(?:性\s*别|…|案\s*由)|[。]` match at the start of `l`?
(The keyword heads are not separator characters, so the separator run is
the maximal one.) -/
def matchesEndAt (l : Str) : Bool :=
  (endKwList.any fun kw => (matchSpaced kw (l.dropWhile isDefSep)).isSome) ||
    (match l with | c :: _ => c = '。' | [] => false)

/-- Index of the leftmost match of the end pattern; the alternative `$`
matches at the end of the string, so the scan returns the length when no
earlier alternative matches. -/
def findEndIdx : Str → Nat
  | [] => 0
  | l@(_ :: t) => if matchesEndAt l then 0 else 1 + findEndIdx t

/-- `pattern_end.search(clean_remaining)` as an option: the final alternative
`$` always matches (the search string contains no newline, having been
stripped of them), so the search always succeeds. -/
def searchEndOpt (l : Str) : Option Nat := some (findEndIdx l)

/-- Lines 313-322: `name = clean_remaining[:match_end.start()]` when the end
search succeeds; the `else` branch (truncate to 50 chars, cut at the first
of `性男女生住联`) is unreachable because `searchEndOpt` always succeeds,
but is modelled faithfully. -/
def nameBeforeClean (cleanRemaining : Str) : Str :=
  match searchEndOpt cleanRemaining with
  | some i => cleanRemaining.take i
  | none =>
    (cleanRemaining.take 50).takeWhile fun c =>
      !(c = '性' || c = '男' || c = '女' || c = '生' || c = '住' || c = '联')

/-- The strip set `' ,，、:：；;\t'` of line 325. -/
def isPunctStripChar (c : Char) : Bool :=
  c = ' ' || c = ',' || c = '，' || c = '、' || c = ':' || c = '：' ||
  c = '；' || c = ';' || c = '\t'

/-- `s.strip(chars)` for a decidable character set. -/
def trimSet (p : Char → Bool) (l : Str) : Str :=
  ((l.dropWhile p).reverse.dropWhile p).reverse

/-- `remaining.replace('\n', '').replace('\r', '')` (line 307). -/
def dropCR (l : Str) : Str := l.filter (fun c => c ≠ '\n' && c ≠ '\r')

/-- The matched defendant value after the label, cut at the first anchor and
stripped of enclosing punctuation (lines 299-325, up to and including
`name.strip(' ,，、:：；;\t')`); `none` when the label `被\s*告\s*[:：]` does
not occur. -/
def matchedName (text : Str) : Option Str :=
  match scanLabelColon ['被', '告'] text with
  | none => none
  | some suffix =>
    let cleanRemaining := dropCR suffix
    some (trimSet isPunctStripChar (nameBeforeClean cleanRemaining))

/-- Lines 330-333, the fallback pattern `被\s*告\s*[:：]\s*(.*?)\n`.  It is
reached only when the primary label search failed, in which case this
label search fails as well; the body models the lazy group (the characters
after the post-colon whitespace run, up to the first newline; the group
cannot contain a newline, and when the only newline lies inside the
whitespace run the group is empty and strips to nothing). -/
def fallbackDefendant (text : Str) : Str :=
  match scanLabelColon ['被', '告'] text with
  | none => []
  | some suffix =>
    let afterWS := suffix.dropWhile isWS
    if afterWS.any (fun c => c = '\n') then
      trimWS (afterWS.takeWhile fun c => c ≠ '\n')
    else []

/-- The lstrip set `'被告'` of line 326. -/
def isBeiGao (c : Char) : Bool := c = '被' || c = '告'

/-- `extract_defendant` (pdf_bridge.py lines 294-335). -/
def extract_defendant (text : Str) : Str :=
  match matchedName text with
  | some n => trimWS (n.dropWhile isBeiGao)
  | none => fallbackDefendant text

/-! ### Field Extractor: `extract_id_number` (pdf_bridge.py lines 337-352) -/

/-- Character class `[\dXx]`. -/
def isIdChar (c : Char) : Bool := isPyDigit c || c = 'X' || c = 'x'

/-- Match `身\s*份\s*证\s*号\s*码\s*[:：]\s*([\dXx]{15,18})` anchored at the
start of `l`: the greedy counted class takes the maximal run capped at 18
and requires at least 15. -/
def idLabelTry (l : Str) : Option Str :=
  match matchLabelColon ['身', '份', '证', '号', '码'] l with
  | none => none
  | some rest =>
    let afterWS := rest.dropWhile isWS
    let run := afterWS.takeWhile isIdChar
    if 15 ≤ run.length then some (run.take 18) else none

/-- `re.search` of the labelled id pattern: leftmost anchored match. -/
def idLabelScan : Str → Option Str
  | [] => none
  | l@(_ :: t) =>
    match idLabelTry l with
    | some g => some g
    | none => idLabelScan t

/-- Match `(\d{17}[\dXx])\b` anchored at the start of `l` (the leading `\b`
is checked by the caller against the previous character). -/
def directTry (l : Str) : Option Str :=
  let d17 := l.take 17
  if d17.length = 17 && d17.all isPyDigit then
    match l.drop 17 with
    | c :: rest =>
      if isIdChar c then
        match rest with
        | [] => some (d17 ++ [c])
        | r :: _ => if !isWordChar r then some (d17 ++ [c]) else none
      else none
    | [] => none
  else none

/-- `re.search(r'\b(\d{17}[\dXx])\b')`: scan every position, carrying the
previous character to decide the leading word boundary. -/
def directScan : Option Char → Str → Option Str
  | _, [] => none
  | prev, l@(c :: t) =>
    if (match prev with | none => true | some p => !isWordChar p) then
      match directTry l with
      | some g => some g
      | none => directScan (some c) t
    else directScan (some c) t

/-- `extract_id_number` (pdf_bridge.py lines 337-352). -/
def extract_id_number (text : Str) : Str :=
  match idLabelScan text with
  | some g => trimWS g
  | none =>
    match directScan none text with
    | some g => g
    | none => []

/-! ### Field Extractors: `extract_request`, `extract_facts_reason`
(pdf_bridge.py lines 354-385).

For `label\s*[:：]\s*(.*?)\s*terminator` with `re.DOTALL`: distinct label
occurrences cannot overlap (each label's characters are pairwise distinct
and none occurs in `\s`/colon), so a terminator exists after some label
occurrence iff one exists after the first, and the leftmost match starts at
the first label occurrence.  The lazy group together with the surrounding
greedy `\s*` captures exactly the text between the colon and the first
terminator occurrence, stripped of whitespace on both ends. -/

/-- `extract_request` (pdf_bridge.py lines 354-363). -/
def extract_request (text : Str) : Str :=
  match scanLabelColon ['诉', '讼', '请', '求'] text with
  | none => []
  | some suffix =>
    match splitAtSpaced ['事', '实', '与', '理', '由'] suffix with
    | none => []
    | some pre => smart_merge (trimWS pre)

/-- `extract_facts_reason` (pdf_bridge.py lines 365-385); the fallback
pattern `(.*)` captures the whole remainder after the post-colon whitespace,
truncated to 2000 characters. -/
def extract_facts_reason (text : Str) : Str :=
  match scanLabelColon ['事', '实', '与', '理', '由'] text with
  | none => []
  | some suffix =>
    match splitAtSpaced ['此', '致'] suffix with
    | some pre => smart_merge (trimWS pre)
    | none =>
      let content := suffix.dropWhile isWS
      let content2 := if 2000 < content.length then content.take 2000 else content
      smart_merge content2

/-! ### Case Segmenter and `extract_all_fields` (pdf_bridge.py lines 387-412) -/

/-- Match `民\s*事\s*起\s*诉\s*状` anchored at the start of `l`; returns the
number of characters consumed (at least 5 on success). -/
def tryTitle (l : Str) : Option Nat :=
  match matchSpaced ['民', '事', '起', '诉', '状'] l with
  | some rest => some (l.length - rest.length)
  | none => none

/-- `re.split(r'民\s*事\s*起\s*诉\s*状', text)`: parts between the leftmost
non-overlapping matches; the second argument counts matched characters still
to be discarded. -/
def splitGo : Str → Nat → List Str
  | [], _ => [[]]
  | _ :: t, k + 1 => splitGo t k
  | l@(c :: t), 0 =>
    match tryTitle l with
    | some k => [] :: splitGo t (k - 1)
    | none =>
      match splitGo t 0 with
      | h :: r => (c :: h) :: r
      | [] => [[c]]

def splitCases (text : Str) : List Str := splitGo text 0

/-- A case record: mapping of the four field names to extracted strings,
in the dict order of pdf_bridge.py lines 401-406. -/
structure CaseRecord where
  defendant : Str
  idNumber : Str
  request : Str
  factsReason : Str
deriving DecidableEq

/-- The record built for one case block (lines 401-406). -/
def mkRecord (caseText : Str) : CaseRecord :=
  ⟨extract_defendant caseText, extract_id_number caseText,
   extract_request caseText, extract_facts_reason caseText⟩

/-- `any(v for v in record.values())` (line 409). -/
def recordHasValue (r : CaseRecord) : Bool :=
  r.defendant ≠ [] || r.idNumber ≠ [] || r.request ≠ [] || r.factsReason ≠ []

/-- `extract_all_fields` (pdf_bridge.py lines 387-412). -/
def extract_all_fields (text : Str) : List CaseRecord :=
  (splitCases text).filterMap fun caseText =>
    if trimWS caseText = [] then none
    else
      let r := mkRecord caseText
      if recordHasValue r then some r else none

/-! ### Dual-Source Merger: `merge_records` (pdf_bridge.py lines 198-253) -/

/-- The index-wise merge of the equal-count branch (lines 214-236): start
from the text record; id number prefers a non-empty OCR value; the other
fields fill from OCR only when the text value is empty. -/
def mergeOne (t o : CaseRecord) : CaseRecord :=
  { defendant := if t.defendant = [] && o.defendant ≠ [] then o.defendant else t.defendant
    idNumber := if o.idNumber ≠ [] then o.idNumber else t.idNumber
    request := if t.request = [] && o.request ≠ [] then o.request else t.request
    factsReason := if t.factsReason = [] && o.factsReason ≠ [] then o.factsReason else t.factsReason }

/-- Line 248: `t_name == o_name or t_name in o_name or o_name in t_name`. -/
def nameMatch (tn oname : Str) : Bool :=
  tn = oname || containsSub tn oname || containsSub oname tn

/-- Lines 243-251: the unequal-count branch mutates each text record at most
once, copying the id number from the first OCR record whose name matches
(the loop breaks on the first name match whether or not it copies). -/
def fillFromOCR (os : List CaseRecord) (t : CaseRecord) : CaseRecord :=
  match os.find? (fun o => nameMatch t.defendant o.defendant) with
  | none => t
  | some o =>
    if t.idNumber = [] && o.idNumber ≠ [] then { t with idNumber := o.idNumber }
    else t

/-- `merge_records` (pdf_bridge.py lines 198-253). -/
def merge_records (textRecords ocrRecords : List CaseRecord) : List CaseRecord :=
  if ocrRecords = [] then textRecords
  else if textRecords = [] then ocrRecords
  else if textRecords.length = ocrRecords.length then
    List.zipWith mergeOne textRecords ocrRecords
  else textRecords.map (fillFromOCR ocrRecords)

/-! ### Shape predicates for the `smart_merge` idempotence analysis.

They describe the intermediate strings of the `smart_merge` pipeline on
bracket-free input: where the placeholder blocks sit and what surrounds
them. -/

/-- An enumeration marker as matched by step B after the whitespace run:
either `[一二三四五六七八九十\d]+[、．]` or `[(（][一二三四五六七八九十\d]+[)）]`. -/
def IsMarker (m : Str) : Prop :=
  (∃ c run s, m = c :: run ++ [s] ∧ isNumChar c = true ∧
    (∀ x ∈ run, isNumChar x = true) ∧ isSepDot s = true) ∨
  (∃ c run s, m = c :: run ++ [s] ∧ isOpenBr c = true ∧ run ≠ [] ∧
    (∀ x ∈ run, isNumChar x = true) ∧ isCloseBr s = true)

/-- The group `\1` consumed by step B: a whitespace run then a marker. -/
def IsGroup (g : Str) : Prop :=
  ∃ ws m, g = ws ++ m ∧ (∀ c ∈ ws, isWS c = true) ∧ IsMarker m

/-- Shape of `subA v` for bracket-free `v`: ordinary characters (never `[`)
and punctuation-preceded placeholder blocks. -/
inductive SubAOut : Str → Prop
  | nil : SubAOut []
  | ch (c : Char) (t : Str) : c ≠ '[' → SubAOut t → SubAOut (c :: t)
  | pblk (c : Char) (t : Str) : isPunctEnd c = true → SubAOut t → SubAOut (c :: (PH ++ t))

/-- Shape of `subB (subA v)` for bracket-free `v`: additionally, placeholder
blocks followed by their consumed group. -/
inductive SubBOut : Str → Prop
  | nil : SubBOut []
  | ch (c : Char) (t : Str) : c ≠ '[' → SubBOut t → SubBOut (c :: t)
  | pblk (c : Char) (t : Str) : isPunctEnd c = true → SubBOut t → SubBOut (c :: (PH ++ t))
  | mblk (g : Str) (t : Str) : IsGroup g → SubBOut t → SubBOut (PH ++ (g ++ t))

/-- Shape of `restorePH (dropNL (subB (subA v)))` for bracket-free `v`:
every newline is preceded by sentence-final punctuation or followed by a
(whitespace-free) whitespace run and an enumeration marker. -/
inductive Brk : Str → Prop
  | nil : Brk []
  | ch (c : Char) (t : Str) : c ≠ '[' → c ≠ '\n' → Brk t → Brk (c :: t)
  | pbrk (c : Char) (t : Str) : isPunctEnd c = true → Brk t → Brk (c :: '\n' :: t)
  | mbrk (ws m : Str) (t : Str) : (∀ c ∈ ws, isWS c = true ∧ c ≠ '\n') →
      IsMarker m → Brk t → Brk ('\n' :: (ws ++ m ++ t))

/-- `b` begins with an enumeration marker. -/
def StartsMarker (b : Str) : Prop := ∃ m rest, b = m ++ rest ∧ IsMarker m

/-- A line of the normal form: non-empty, whitespace-free, bracket-free. -/
def LineGood (l : Str) : Prop := l ≠ [] ∧ ∀ c ∈ l, isWS c = false ∧ c ≠ '['

/-- The boundary relation of the normal form: the left line ends with
sentence-final punctuation or the right line begins with a marker. -/
def RelNL (a b : Str) : Prop :=
  (∃ c, a.getLast? = some c ∧ isPunctEnd c = true) ∨ StartsMarker b

/-- The normal form of `smart_merge` output on bracket-free input: a list of
lines, each non-empty, whitespace-free and bracket-free, where at every
boundary the left line ends with sentence-final punctuation or the right
line begins with an enumeration marker. -/
def NormalLines (ls : List Str) : Prop :=
  (∀ l ∈ ls, LineGood l) ∧ List.Chain' RelNL ls

/-- The kept-lines image of the tail of the `smart_merge` pipeline. -/
def smK (y : Str) : List Str := cleanLines (splitNL y)

/-- The cleaned first segment of `y` (before its first newline). -/
def smFirst (y : Str) : Str := removeWS (splitNL y).headI

/-- The kept lines of everything after the first segment of `y`. -/
def smTail (y : Str) : List Str := cleanLines (splitNL y).tail

/-- Either no kept lines, or the first kept line begins with a marker. -/
def HeadMarker (ls : List Str) : Prop := ls = [] ∨ StartsMarker ls.headI

/-- The line's final character is sentence-final punctuation. -/
def endsPunct (l : Str) : Bool :=
  match l.getLast? with
  | some c => isPunctEnd c
  | none => false

/-- `joinNL` with a placeholder block at punctuation-closed boundaries and a
newline at the other boundaries: the image of the normal form under step A. -/
def joinA : List Str → Str
  | [] => []
  | [l] => l
  | l :: ls => l ++ (if endsPunct l then PH ++ joinA ls else '\n' :: joinA ls)

/-- `joinNL` with every newline replaced by the placeholder block: the image
of the normal form under steps A and B. -/
def joinPH : List Str → Str
  | [] => []
  | [l] => l
  | l :: ls => l ++ (PH ++ joinPH ls)

/-! ## Claim theorems -/

/-- C7: anchor-bounded defendant extraction.  For the input
`"被告：张三 性别：男"`, `extract_defendant` returns exactly `"张三"`: the
value runs from the defendant label to the first anchor keyword (gender),
stripped of enclosing punctuation and whitespace. -/
theorem C7_defendant_anchor :
    extract_defendant ("被告：张三 性别：男".data) = ("张三".data) := by decide

/-- C6 counterexample: the scrubber does not collapse an immediate repeat of
a noise glyph to nothing; `clean_watermark_chars "银银"` returns `"银"`, so an
occurrence of the glyph remains at that position in the output, contradicting
the claim that no occurrence of the glyph remains. -/
theorem C6_counterexample :
    clean_watermark_chars ("银银".data) = ("银".data) := by decide

/-- Helper for C6: `collapseRepeats` sends a run of 2+ equal CJK characters
to a single copy. -/
theorem collapseRepeats_replicate (c : Char) (hc : isCJKUnified c = true) :
    ∀ n : Nat, collapseRepeats (List.replicate (n + 2) c) = [c] := by
  intro n
  induction n with
  | zero => simp [List.replicate, collapseRepeats, hc]
  | succ n ih =>
    have h3 : List.replicate (n + 3) c = c :: c :: List.replicate (n + 1) c := by
      simp [List.replicate_succ]
    have h2 : List.replicate (n + 2) c = c :: List.replicate (n + 1) c := by
      simp [List.replicate_succ]
    calc collapseRepeats (List.replicate (n + 1 + 2) c)
        = collapseRepeats (c :: c :: List.replicate (n + 1) c) := by rw [← h3]
      _ = collapseRepeats (c :: List.replicate (n + 1) c) := by
          simp [collapseRepeats, hc]
      _ = [c] := by rw [← h2]; exact ih

/-- Helper for C6: each literal triple replacement leaves a single character
alone. -/
theorem repl3_singleton (a c : Char) : repl3 a [c] = [c] := rfl

/-- Helper for C6: a run of `k+1` equal CJK characters in front of any
continuation collapses exactly as a single copy in front of it. -/
theorem collapseRepeats_run (c : Char) (hc : isCJKUnified c = true) (post : Str) :
    ∀ k, collapseRepeats (List.replicate (k + 1) c ++ post) = collapseRepeats (c :: post) := by
  intro k
  induction k with
  | zero => rfl
  | succ k ih =>
    have h2 : List.replicate (k + 2) c ++ post = c :: (List.replicate (k + 1) c ++ post) := by
      simp [List.replicate_succ]
    have h3 : List.replicate (k + 1) c ++ post = c :: (List.replicate k c ++ post) := by
      simp [List.replicate_succ]
    rw [h2, h3]
    have hcond : (isCJKUnified c && c = c) = true := by simp [hc]
    have hstep : collapseRepeats (c :: c :: (List.replicate k c ++ post))
        = collapseRepeats (c :: (List.replicate k c ++ post)) := by
      show (if isCJKUnified c && c = c then collapseRepeats (c :: (List.replicate k c ++ post))
            else c :: collapseRepeats (c :: (List.replicate k c ++ post)))
          = collapseRepeats (c :: (List.replicate k c ++ post))
      rw [hcond]
      simp
    rw [hstep, ← h3, ih]

/-- Helper for C6: the scan step of `collapseRepeats` only looks at the next
character, so equal continuations with equal heads collapse equally. -/
theorem collapseRepeats_cons_congr (p : Char) (r1 r2 : Str)
    (hh : r1.head? = r2.head?) (he : collapseRepeats r1 = collapseRepeats r2) :
    collapseRepeats (p :: r1) = collapseRepeats (p :: r2) := by
  cases r1 with
  | nil =>
    cases r2 with
    | nil => rfl
    | cons b r2t => exact absurd hh (by simp)
  | cons a r1t =>
    cases r2 with
    | nil => exact absurd hh (by simp)
    | cons b r2t =>
      have hab : a = b := by simpa using hh
      subst hab
      show (if isCJKUnified p && p = a then collapseRepeats (a :: r1t)
            else p :: collapseRepeats (a :: r1t))
          = (if isCJKUnified p && p = a then collapseRepeats (a :: r2t)
            else p :: collapseRepeats (a :: r2t))
      rw [he]

/-- Helper for C6: `collapseRepeats` under an arbitrary common prefix. -/
theorem collapseRepeats_append_congr : ∀ (pre t1 t2 : Str), t1.head? = t2.head? →
    collapseRepeats t1 = collapseRepeats t2 →
    collapseRepeats (pre ++ t1) = collapseRepeats (pre ++ t2) := by
  intro pre
  induction pre with
  | nil => intro t1 t2 _ he; exact he
  | cons p pre ih =>
    intro t1 t2 hh he
    rw [List.cons_append, List.cons_append]
    refine collapseRepeats_cons_congr p (pre ++ t1) (pre ++ t2) ?_ (ih t1 t2 hh he)
    cases pre with
    | nil => exact hh
    | cons q pret => rfl

/-- C6 amended: step 2 of the scrubber collapses an immediate repeat (a run
of two or more consecutive occurrences) of a CJK glyph, wherever it is
embedded in the line, to a *single* occurrence, not to nothing: the line is
scrubbed to exactly the same output as the same line with one copy of the
glyph at that position. -/
theorem C6_collapse_to_single (pre post : Str) (c : Char) (n : Nat)
    (hc : isCJKUnified c = true) :
    clean_watermark_chars (pre ++ (List.replicate (n + 2) c ++ post))
      = clean_watermark_chars (pre ++ (c :: post)) := by
  unfold clean_watermark_chars
  have h1 : collapseRepeats (pre ++ (List.replicate (n + 2) c ++ post))
      = collapseRepeats (pre ++ (c :: post)) := by
    refine collapseRepeats_append_congr pre _ _ ?_ (collapseRepeats_run c hc post (n + 1))
    have hh : (List.replicate (n + 2) c ++ post).head? = some c := by
      simp [List.replicate_succ]
    rw [hh]
    rfl
  rw [h1]

/-- C6 witness: the embedded repeat `银银` of the line `原告银银请求` is
collapsed to the single occurrence line `原告银请求`, which the scrubber then
leaves unchanged: exactly one copy of the glyph remains at that position. -/
theorem C6_collapse_to_single_witness :
    isCJKUnified '银' = true ∧
      clean_watermark_chars (("原告银银请求").data)
        = clean_watermark_chars (("原告银请求").data) ∧
      clean_watermark_chars (("原告银请求").data) = ("原告银请求").data :=
  ⟨by decide,
    C6_collapse_to_single (("原告").data) (("请求").data) '银' 0 (by decide),
    by decide⟩

/-- C5 counterexample: the 9-character line `天a天b天c天d天`, whose dominant
character `天` occurs 5 times (more than half the line length, on a line of
at least 8 characters) and which meets no other noise condition, is
classified as *not* noise: `is_seal_like_text` has no dominant-character
frequency filter. -/
theorem C5_counterexample :
    is_seal_like_text ("天a天b天c天d天".data) = false ∧
    ("天a天b天c天d天".data).count '天' = 5 ∧
    ("天a天b天c天d天".data).length = 9 := by decide

/-- C5 amended: the classifier implements no dominant-character frequency
condition; a line on which none of the seven implemented conditions fires
(non-blank, no watermark keyword, no run of three identical characters, no
run of three uppercase Latin letters, not latin-digit-only-and-short, no
repeated phrase, no leading group pattern) is classified as not noise,
regardless of its dominant character's frequency. -/
theorem C5_no_dominant_filter (l : Str)
    (h1 : (trimWS l).length ≠ 0)
    (h2 : (sealKeywords.any fun kw => containsSub kw l) = false)
    (h3 : hasRun3 l = false)
    (h4 : hasUpper3 l = false)
    (h5 : l.all isLatinDigitWSChar = false ∨ ¬ (trimWS l).length < 20)
    (h6 : hasRepPhrase l = false)
    (h7 : headPattern l = false) :
    is_seal_like_text l = false := by
  have hne : l ≠ [] := by
    intro h
    subst h
    exact h1 rfl
  unfold is_seal_like_text
  rw [if_neg, if_neg, if_neg, if_neg, if_neg, if_neg, if_neg]
  · rw [h7]
    exact Bool.false_ne_true
  · rw [h6]
    exact Bool.false_ne_true
  · rcases h5 with h5 | h5
    · simp [h5]
    · simp [h5]
  · rw [h4]
    exact Bool.false_ne_true
  · rw [h3]
    exact Bool.false_ne_true
  · rw [h2]
    exact Bool.false_ne_true
  · simp [hne, h1]

/-- C5 witness: the amended theorem applied to the dominant-character line
`天a天b天c天d天`. -/
theorem C5_no_dominant_filter_witness :
    is_seal_like_text ("天a天b天c天d天".data) = false :=
  C5_no_dominant_filter ("天a天b天c天d天".data) (by decide) (by decide) (by decide)
    (by decide) (Or.inl (by decide)) (by decide) (by decide)

/-- C4 counterexample: in the document `甲民x事起诉状乙` the five title
characters appear in order with at most one stray character between each
adjacent pair (a single `x` between `民` and `事`), yet the Case Segmenter
does not split there: the whole document remains one block and the
delimiter text is not discarded.  The code tolerates only whitespace
between the title characters, not arbitrary stray characters. -/
theorem C4_counterexample :
    splitCases ("甲民x事起诉状乙".data) = [("甲民x事起诉状乙".data)] := by decide

/-- Helper for C4: dropping a whitespace run stops at the first
non-whitespace character. -/
theorem dropWhile_ws_append (ws : Str) (h : ∀ c ∈ ws, isWS c = true)
    (c : Char) (hc : isWS c = false) (t : Str) :
    (ws ++ c :: t).dropWhile isWS = c :: t := by
  induction ws with
  | nil => simp [List.dropWhile_cons, hc]
  | cons w ws ih =>
    have hw : isWS w = true := h w (List.mem_cons_self w ws)
    simp only [List.cons_append, List.dropWhile_cons, hw, if_true]
    exact ih fun x hx => h x (List.mem_cons_of_mem w hx)

/-- Helper for C4: `splitGo` never returns the empty list of parts. -/
theorem splitGo_ne_nil : ∀ (l : Str) (k : Nat), splitGo l k ≠ [] := by
  intro l
  induction l with
  | nil => intro k; cases k <;> simp [splitGo]
  | cons c t ih =>
    intro k
    cases k with
    | succ k => simpa [splitGo] using ih k
    | zero =>
      unfold splitGo
      cases htt : tryTitle (c :: t) with
      | some k => simp
      | none =>
        simp only
        cases hs : splitGo t 0 with
        | nil => simp
        | cons h r => simp

/-- Helper for C4: the skip mode of `splitGo` discards exactly the matched
characters. -/
theorem splitGo_skip (x : Str) : ∀ rest : Str, splitGo (x ++ rest) x.length = splitGo rest 0 := by
  induction x with
  | nil => intro rest; rfl
  | cons c x ih => intro rest; simpa [splitGo] using ih rest

/-- Helper for C4: the scan step of `splitGo` at a title match. -/
theorem splitGo_cons_of_title (c : Char) (t : Str) (k : Nat)
    (h : tryTitle (c :: t) = some k) :
    splitGo (c :: t) 0 = [] :: splitGo t (k - 1) := by
  conv_lhs => unfold splitGo
  rw [h]

/-- Helper for C4: a title match must begin with `民`. -/
theorem tryTitle_none_of_ne (c : Char) (t : Str) (hc : c ≠ '民') :
    tryTitle (c :: t) = none := by
  unfold tryTitle
  have : matchSpaced ['民', '事', '起', '诉', '状'] (c :: t) = none := by
    unfold matchSpaced
    simp [Ne.symm hc]
  rw [this]

/-- Helper for C4: scanning text containing no `民` conses it onto the first
part. -/
theorem splitGo_prepend (a : Str) (ha : '民' ∉ a) :
    ∀ rest h r, splitGo rest 0 = h :: r →
      splitGo (a ++ rest) 0 = (a ++ h) :: r := by
  induction a with
  | nil => intro rest h r hs; simpa using hs
  | cons c a ih =>
    intro rest h r hs
    have hc : c ≠ '民' := fun hcc => ha (hcc ▸ List.mem_cons_self c a)
    have ha' : '民' ∉ a := fun hx => ha (List.mem_cons_of_mem c hx)
    have hrec := ih ha' rest h r hs
    rw [List.cons_append]
    unfold splitGo
    rw [tryTitle_none_of_ne c (a ++ rest) hc]
    simp only [hrec, List.cons_append]

/-- C4 amended: the Case Segmenter splits on every occurrence of the five
title characters `民事起诉状` in order separated by runs of *whitespace*
(of any length, including none); the delimiter text, whitespace included,
is discarded.  Non-whitespace stray characters between the title characters
prevent the match. -/
theorem C4_split_ws_gaps (a g1 g2 g3 g4 b : Str)
    (hg1 : ∀ c ∈ g1, isWS c = true) (hg2 : ∀ c ∈ g2, isWS c = true)
    (hg3 : ∀ c ∈ g3, isWS c = true) (hg4 : ∀ c ∈ g4, isWS c = true)
    (ha : '民' ∉ a) :
    splitCases (a ++ '民' :: (g1 ++ '事' :: (g2 ++ '起' :: (g3 ++ '诉' :: (g4 ++ '状' :: b)))))
      = a :: splitCases b := by
  have hmatch :
      matchSpaced ['民', '事', '起', '诉', '状']
        ('民' :: (g1 ++ '事' :: (g2 ++ '起' :: (g3 ++ '诉' :: (g4 ++ '状' :: b))))) = some b := by
    unfold matchSpaced
    rw [if_pos rfl]
    rw [dropWhile_ws_append g1 hg1 '事' (by decide)]
    unfold matchSpaced
    rw [if_pos rfl]
    rw [dropWhile_ws_append g2 hg2 '起' (by decide)]
    unfold matchSpaced
    rw [if_pos rfl]
    rw [dropWhile_ws_append g3 hg3 '诉' (by decide)]
    unfold matchSpaced
    rw [if_pos rfl]
    rw [dropWhile_ws_append g4 hg4 '状' (by decide)]
    unfold matchSpaced
    rw [if_pos rfl]
  have hlen :
      ('民' :: (g1 ++ '事' :: (g2 ++ '起' :: (g3 ++ '诉' :: (g4 ++ '状' :: b))))).length
        = (g1 ++ '事' :: (g2 ++ '起' :: (g3 ++ '诉' :: (g4 ++ ['状'])))).length + 1 + b.length := by
    simp +arith [List.length_append, List.length_cons]
  have htitle :
      tryTitle ('民' :: (g1 ++ '事' :: (g2 ++ '起' :: (g3 ++ '诉' :: (g4 ++ '状' :: b)))))
        = some ((g1 ++ '事' :: (g2 ++ '起' :: (g3 ++ '诉' :: (g4 ++ ['状'])))).length + 1) := by
    unfold tryTitle
    rw [hmatch]
    rw [hlen]
    simp +arith
  have hstep :
      splitGo ('民' :: (g1 ++ '事' :: (g2 ++ '起' :: (g3 ++ '诉' :: (g4 ++ '状' :: b))))) 0
        = [] :: splitGo (g1 ++ '事' :: (g2 ++ '起' :: (g3 ++ '诉' :: (g4 ++ '状' :: b))))
            ((g1 ++ '事' :: (g2 ++ '起' :: (g3 ++ '诉' :: (g4 ++ ['状'])))).length + 1 - 1) :=
    splitGo_cons_of_title _ _ _ htitle
  have hre :
      (g1 ++ '事' :: (g2 ++ '起' :: (g3 ++ '诉' :: (g4 ++ '状' :: b))))
        = (g1 ++ '事' :: (g2 ++ '起' :: (g3 ++ '诉' :: (g4 ++ ['状'])))) ++ b := by
    simp [List.append_assoc]
  have hmid :
      splitGo ('民' :: (g1 ++ '事' :: (g2 ++ '起' :: (g3 ++ '诉' :: (g4 ++ '状' :: b))))) 0
        = [] :: splitGo b 0 := by
    rw [hstep]
    rw [Nat.add_sub_cancel]
    rw [hre, splitGo_skip]
  obtain ⟨h, r, hs⟩ : ∃ h r, splitGo b 0 = h :: r := by
    cases hsb : splitGo b 0 with
    | nil => exact absurd hsb (splitGo_ne_nil b 0)
    | cons h r => exact ⟨h, r, rfl⟩
  unfold splitCases
  rw [splitGo_prepend a ha _ [] (splitGo b 0) (by rw [hmid])]
  simp [hs]

/-- C4 witness: the amended theorem applied to a concrete document whose
title characters are separated by a space and a newline; the block before
the title and the block after it are the resulting parts. -/
theorem C4_split_ws_gaps_witness :
    splitCases ("甲乙".data ++ '民' :: ([' '] ++ '事' :: (['\n'] ++ '起' :: ([] ++ '诉' :: ([' '] ++ '状' :: ("丙丁".data))))))
      = ("甲乙".data) :: splitCases ("丙丁".data) :=
  C4_split_ws_gaps ("甲乙".data) [' '] ['\n'] [] [' '] ("丙丁".data)
    (by decide) (by decide) (by decide) (by decide) (by decide)

/-- C1 counterexample: an 18-digit sequence immediately preceded by
`统一社会信用代码：` is *not* rejected; `extract_id_number` does not return
the empty string for it.  The unlabeled fallback performs no check of the
preceding characters (and no year-of-birth check). -/
theorem C1_counterexample :
    extract_id_number ("统一社会信用代码：123456789012345678".data) ≠ [] := by decide

/-- Helper for C1: the labelled pattern requires `身`. -/
theorem idLabelTry_none_of_ne (c : Char) (t : Str) (hc : c ≠ '身') :
    idLabelTry (c :: t) = none := by
  unfold idLabelTry matchLabelColon
  have : matchSpaced ['身', '份', '证', '号', '码'] (c :: t) = none := by
    unfold matchSpaced
    simp [Ne.symm hc]
  rw [this]

/-- Helper for C1: the labelled search fails on text without `身`. -/
theorem idLabelScan_none (l : Str) (h : '身' ∉ l) : idLabelScan l = none := by
  induction l with
  | nil => rfl
  | cons c t ih =>
    have hc : c ≠ '身' := fun hcc => h (hcc ▸ List.mem_cons_self c t)
    unfold idLabelScan
    rw [idLabelTry_none_of_ne c t hc]
    exact ih fun hx => h (List.mem_cons_of_mem c hx)

/-- Helper for C1: the direct pattern requires a digit first. -/
theorem directTry_none_of_not_digit (c : Char) (t : Str) (hc : isPyDigit c = false) :
    directTry (c :: t) = none := by
  unfold directTry
  simp [hc]

/-- Helper for C1: the direct pattern accepts an exactly-18-digit string. -/
theorem directTry_full (d : Str) (hlen : d.length = 18)
    (hd : ∀ c ∈ d, isPyDigit c = true) : directTry d = some d := by
  have hlen17 : (d.take 17).length = 17 := by
    rw [List.length_take, hlen]
    decide
  have hall17 : (d.take 17).all isPyDigit = true := by
    rw [List.all_eq_true]
    intro c hc
    exact hd c (List.mem_of_mem_take hc)
  have hdrop : (d.drop 17).length = 1 := by
    rw [List.length_drop, hlen]
  obtain ⟨c, hc⟩ : ∃ c, d.drop 17 = [c] := by
    cases hd17 : d.drop 17 with
    | nil => rw [hd17] at hdrop; simp at hdrop
    | cons c r =>
      cases r with
      | nil => exact ⟨c, rfl⟩
      | cons x y => rw [hd17] at hdrop; simp at hdrop
  have hcd : c ∈ d := by
    have : c ∈ d.drop 17 := by rw [hc]; exact List.mem_singleton.mpr rfl
    exact List.mem_of_mem_drop this
  have hdig : isPyDigit c = true := hd c hcd
  unfold directTry
  rw [hc]
  simp only [hlen17, hall17, Bool.and_self, if_true]
  have hid : isIdChar c = true := by
    unfold isIdChar
    rw [hdig]
    rfl
  simp only [hid, if_true]
  have : d.take 17 ++ [c] = d := by
    conv_rhs => rw [← List.take_append_drop 17 d]
    rw [hc]
  simp [this]

/-- Helper for C1: `getLast?` of a cons with non-empty tail. -/
theorem getLast?_cons_of_ne (c : Char) (l : Str) (h : l ≠ []) :
    (c :: l).getLast? = l.getLast? := by
  cases l with
  | nil => exact absurd rfl h
  | cons x t => simp [List.getLast?_cons_cons]

/-- Helper for C1: the boundary-checked scan runs through a digit-free
prefix whose last character is not a word character, then matches the
18-digit block. -/
theorem directScan_through : ∀ (pre : Str) (prev : Option Char) (d : Str),
    (∀ c ∈ pre, isPyDigit c = false) →
    (pre = [] → (match prev with | none => True | some p => isWordChar p = false)) →
    (∀ c, pre.getLast? = some c → isWordChar c = false) →
    d.length = 18 → (∀ c ∈ d, isPyDigit c = true) →
    directScan prev (pre ++ d) = some d := by
  intro pre
  induction pre with
  | nil =>
    intro prev d hpre hprev hlast hlen hd
    obtain ⟨c, t, hct⟩ : ∃ c t, d = c :: t := by
      cases d with
      | nil => simp at hlen
      | cons c t => exact ⟨c, t, rfl⟩
    subst hct
    rw [List.nil_append]
    cases prev with
    | none =>
      unfold directScan
      rw [directTry_full (c :: t) hlen hd]
      rfl
    | some p =>
      have hp : isWordChar p = false := hprev rfl
      unfold directScan
      simp [hp, directTry_full (c :: t) hlen hd]
  | cons c pre ih =>
    intro prev d hpre hprev hlast hlen hd
    have hc : isPyDigit c = false := hpre c (List.mem_cons_self c pre)
    have hpre' : ∀ x ∈ pre, isPyDigit x = false :=
      fun x hx => hpre x (List.mem_cons_of_mem c hx)
    have hprev' : pre = [] → (match some c with | none => True | some p => isWordChar p = false) := by
      intro hnil
      have : (c :: pre).getLast? = some c := by
        rw [hnil]
        rfl
      exact hlast c this
    have hlast' : ∀ x, pre.getLast? = some x → isWordChar x = false := by
      intro x hx
      apply hlast
      cases pre with
      | nil => simp at hx
      | cons p t => rw [getLast?_cons_of_ne c (p :: t) (by simp)]; exact hx
    have hrec := ih (some c) d hpre' hprev' hlast' hlen hd
    rw [List.cons_append]
    unfold directScan
    rw [directTry_none_of_not_digit c (pre ++ d) hc]
    cases hm : (match prev with | none => true | some p => !isWordChar p) with
    | true => simp only [hm, if_true]; exact hrec
    | false => simp only [hm, Bool.false_eq_true, if_false]; exact hrec

/-- C1 amended: the unlabeled fallback of `extract_id_number` performs no
validation of the embedded year of birth and no check of the preceding
characters: any boundary-delimited 18-digit sequence is accepted whatever
precedes it.  In particular an 18-digit sequence directly preceded by
`统一社会信用代码：` (or any other digit-free text not ending in a word
character) is accepted and returned, not rejected. -/
theorem C1_no_credit_check (pre d : Str)
    (hp1 : '身' ∉ pre)
    (hp2 : ∀ c ∈ pre, isPyDigit c = false)
    (hp3 : ∀ c, pre.getLast? = some c → isWordChar c = false)
    (hlen : d.length = 18) (hd : ∀ c ∈ d, isPyDigit c = true) :
    extract_id_number (pre ++ d) = d := by
  have hnoshen : '身' ∉ pre ++ d := by
    intro hmem
    rcases List.mem_append.mp hmem with h | h
    · exact hp1 h
    · have := hd '身' h
      simp [isPyDigit] at this
  unfold extract_id_number
  rw [idLabelScan_none (pre ++ d) hnoshen]
  rw [directScan_through pre none d hp2 (fun _ => trivial) hp3 hlen hd]

/-- C1 witness: the amended theorem applied to the credit-code prefix
`统一社会信用代码：` and the 18-digit sequence of the counterexample. -/
theorem C1_no_credit_check_witness :
    extract_id_number ("统一社会信用代码：123456789012345678".data)
      = ("123456789012345678".data) := by
  have h := C1_no_credit_check ("统一社会信用代码：".data) ("123456789012345678".data)
    (by decide) (by decide) (by decide) (by decide) (by decide)
  exact h

/-- Helper for C9: `lstrip('被告')` removes exactly the leading run of
characters from the set `{被, 告}`. -/
theorem dropWhile_beigao (p m : Str) (hp : ∀ c ∈ p, isBeiGao c = true)
    (hm : ∀ c, m.head? = some c → isBeiGao c = false) :
    (p ++ m).dropWhile isBeiGao = m := by
  induction p with
  | nil =>
    cases m with
    | nil => rfl
    | cons c m' =>
      have := hm c rfl
      simp [List.dropWhile_cons, this]
  | cons c p ih =>
    have hc := hp c (List.mem_cons_self c p)
    simp only [List.cons_append, List.dropWhile_cons, hc, if_true]
    exact ih fun x hx => hp x (List.mem_cons_of_mem c hx)

/-- C9: when the matched defendant value (the text between the label and the
first anchor, stripped of enclosing punctuation) begins with a run of
characters from the two-character set `{被, 告}`, `extract_defendant`
removes that entire leading run individually (Python `lstrip('被告')`) and
returns the remainder, whitespace-stripped — even when the run is part of a
genuine name. -/
theorem C9_lstrip_leading (t p m : Str)
    (h : matchedName t = some (p ++ m))
    (hp : ∀ c ∈ p, isBeiGao c = true)
    (hm : ∀ c, m.head? = some c → isBeiGao c = false) :
    extract_defendant t = trimWS m := by
  unfold extract_defendant
  rw [h]
  show trimWS ((p ++ m).dropWhile isBeiGao) = trimWS m
  rw [dropWhile_beigao p m hp hm]

/-- C9 witness: for `被告：告某 性别：男` the matched value `告某` (a genuine
name starting with `告`) loses its leading character and the result is `某`. -/
theorem C9_lstrip_leading_witness :
    matchedName ("被告：告某 性别：男".data) = some (['告'] ++ ['某']) ∧
    extract_defendant ("被告：告某 性别：男".data) = trimWS ['某'] :=
  ⟨by decide,
   C9_lstrip_leading ("被告：告某 性别：男".data) ['告'] ['某'] (by decide)
     (by decide) (by decide)⟩

/-- Helper for C2: indexing a `zipWith`. -/
theorem zipWith_getElem_opt (f : CaseRecord → CaseRecord → CaseRecord) :
    ∀ (as bs : List CaseRecord) (i : Nat) (a b : CaseRecord),
      as[i]? = some a → bs[i]? = some b →
      (List.zipWith f as bs)[i]? = some (f a b) := by
  intro as
  induction as with
  | nil => intro bs i a b ha; simp at ha
  | cons x as ih =>
    intro bs i a b ha hb
    cases bs with
    | nil => simp at hb
    | cons y bs =>
      cases i with
      | zero =>
        simp only [List.getElem?_cons_zero, Option.some.injEq] at ha hb
        subst ha
        subst hb
        simp [List.zipWith]
      | succ i =>
        simp only [List.getElem?_cons_succ] at ha hb
        simpa [List.zipWith] using ih bs i a b ha hb

/-- C2: equal non-zero case counts merge index-wise.  The merged record at
index `i` starts from the text-source record `t`; its `idNumber` takes the
OCR value whenever the OCR `idNumber` is non-empty (even if the text-source
`idNumber` is non-empty), and each of `defendant`, `request`, `factsReason`
takes the OCR value only when the text-source value is empty. -/
theorem C2_merge_equal (ts os : List CaseRecord) (t o : CaseRecord) (i : Nat)
    (hlen : ts.length = os.length) (hne : ts ≠ [])
    (ht : ts[i]? = some t) (ho : os[i]? = some o) :
    (merge_records ts os)[i]? = some
      { defendant := if t.defendant = [] && o.defendant ≠ [] then o.defendant else t.defendant
        idNumber := if o.idNumber ≠ [] then o.idNumber else t.idNumber
        request := if t.request = [] && o.request ≠ [] then o.request else t.request
        factsReason := if t.factsReason = [] && o.factsReason ≠ [] then o.factsReason else t.factsReason } := by
  have hos : os ≠ [] := by
    intro h
    subst h
    simp only [List.length_nil] at hlen
    exact hne (List.eq_nil_of_length_eq_zero hlen)
  unfold merge_records
  rw [if_neg hos, if_neg hne, if_pos hlen]
  exact zipWith_getElem_opt mergeOne ts os i t o ht ho

/-- C2 witness: the spec's example — text record with empty id and defendant
`李四` merged with an OCR record carrying only the id number. -/
theorem C2_merge_equal_witness :
    (merge_records [⟨("李四".data), [], [], []⟩]
        [⟨[], ("110101199001011234".data), [], []⟩])[0]?
      = some ⟨("李四".data), ("110101199001011234".data), [], []⟩ := by
  have h := C2_merge_equal [⟨("李四".data), [], [], []⟩]
    [⟨[], ("110101199001011234".data), [], []⟩]
    ⟨("李四".data), [], [], []⟩ ⟨[], ("110101199001011234".data), [], []⟩ 0
    (by decide) (by decide) (by decide) (by decide)
  rw [h]
  decide

/-- C10: in the unequal-count merge mode, a text-source record whose
defendant field is the empty string name-matches the *first* OCR record
unconditionally (the empty string is a substring of every name), so when its
own `idNumber` is empty it carries the first OCR record's `idNumber` in the
output, regardless of which case that OCR record describes. -/
theorem C10_empty_name_first_ocr (ts os : List CaseRecord) (t : CaseRecord)
    (hos : os ≠ []) (hts : ts ≠ []) (hlen : ts.length ≠ os.length)
    (ht : t ∈ ts) (hd : t.defendant = []) (hid : t.idNumber = []) :
    { t with idNumber := (os.head hos).idNumber } ∈ merge_records ts os := by
  unfold merge_records
  rw [if_neg hos, if_neg hts, if_neg hlen]
  apply List.mem_map.mpr
  refine ⟨t, ht, ?_⟩
  obtain ⟨o, os', rfl⟩ : ∃ o os', os = o :: os' := by
    cases os with
    | nil => exact absurd rfl hos
    | cons o os' => exact ⟨o, os', rfl⟩
  unfold fillFromOCR
  have hmatch : nameMatch t.defendant o.defendant = true := by
    unfold nameMatch
    rw [hd]
    have : containsSub [] o.defendant = true := by
      unfold containsSub
      rfl
    rw [this]
    simp
  have hfind : List.find? (fun r => nameMatch t.defendant r.defendant) (o :: os') = some o :=
    List.find?_cons_of_pos os' hmatch
  rw [hfind]
  by_cases hoid : o.idNumber = []
  · cases t with
    | mk a b c d =>
      have hb : b = [] := hid
      subst hb
      simp [List.head_cons, hoid]
  · simp [hid, hoid, List.head_cons]

/-- C8: totality of the extraction chain.  The chain is embedded as total
functions; beyond definedness, every record `extract_all_fields` emits has
at least one non-empty field (best-effort values, never failures), and
`merge_records` yields a record list governed only by its inputs: its
length equals the text-source length whenever both inputs are non-empty,
and its output is non-empty whenever either input is. -/
theorem C8_total_best_effort :
    (∀ s r, r ∈ extract_all_fields s → recordHasValue r = true) ∧
    (∀ ts os : List CaseRecord, ts ≠ [] → os ≠ [] →
      (merge_records ts os).length = ts.length) ∧
    (∀ ts os : List CaseRecord, ts ≠ [] ∨ os ≠ [] → merge_records ts os ≠ []) := by
  refine ⟨?_, ?_, ?_⟩
  · intro s r h
    unfold extract_all_fields at h
    obtain ⟨c, hc, hf⟩ := List.mem_filterMap.mp h
    by_cases h1 : trimWS c = []
    · rw [if_pos h1] at hf
      exact absurd hf (by simp)
    · rw [if_neg h1] at hf
      simp only at hf
      by_cases h2 : recordHasValue (mkRecord c) = true
      · rw [if_pos h2] at hf
        obtain rfl := Option.some.inj hf
        exact h2
      · rw [if_neg h2] at hf
        exact absurd hf (by simp)
  · intro ts os hts hos
    unfold merge_records
    rw [if_neg hos, if_neg hts]
    by_cases hl : ts.length = os.length
    · rw [if_pos hl]
      rw [List.length_zipWith, ← hl]
      exact Nat.min_self _
    · rw [if_neg hl]
      exact List.length_map ts _
  · intro ts os h
    unfold merge_records
    by_cases hos : os = []
    · rw [if_pos hos]
      rcases h with h | h
      · exact h
      · exact absurd hos h
    · rw [if_neg hos]
      by_cases hts : ts = []
      · rw [if_pos hts]
        exact hos
      · rw [if_neg hts]
        by_cases hl : ts.length = os.length
        · rw [if_pos hl]
          intro hz
          have h0 : 0 < ts.length := List.length_pos.mpr hts
          have : (List.zipWith mergeOne ts os).length = ts.length := by
            rw [List.length_zipWith, ← hl]
            exact Nat.min_self _
          rw [hz] at this
          simp only [List.length_nil] at this
          rw [← this] at h0
          exact Nat.lt_irrefl 0 h0
        · rw [if_neg hl]
          intro hz
          have := List.map_eq_nil_iff.mp hz
          exact hts this

/-- C8 witness: the theorem applied to the concrete document
`被告：张三 性别：男` (whose single record has a non-empty defendant) and to
concrete record lists. -/
theorem C8_total_best_effort_witness :
    recordHasValue (mkRecord ("被告：张三 性别：男".data)) = true ∧
    (merge_records [mkRecord ("被告：张三 性别：男".data)]
        [⟨[], [], [], []⟩, ⟨[], [], [], []⟩]).length = 1 ∧
    merge_records [mkRecord ("被告：张三 性别：男".data)] [] ≠ [] :=
  ⟨C8_total_best_effort.1 ("被告：张三 性别：男".data) _ (by decide),
   C8_total_best_effort.2.1 _ _ (by decide) (by decide),
   C8_total_best_effort.2.2 _ _ (Or.inl (by decide))⟩

/-! ## Lemmas for the `smart_merge` idempotence analysis (claim C3) -/

/-- Code-point case analysis of the whitespace class. -/
theorem isWS_cases (c : Char) (h : isWS c = true) :
    c.toNat = 32 ∨ c.toNat = 9 ∨ c.toNat = 10 ∨ c.toNat = 13 ∨ c.toNat = 11 ∨
    c.toNat = 12 ∨ (0x1c ≤ c.toNat ∧ c.toNat ≤ 0x1f) ∨ c.toNat = 0x85 ∨
    c.toNat = 0xa0 ∨ c.toNat = 0x1680 ∨ (0x2000 ≤ c.toNat ∧ c.toNat ≤ 0x200a) ∨
    c.toNat = 0x2028 ∨ c.toNat = 0x2029 ∨ c.toNat = 0x202f ∨ c.toNat = 0x205f ∨
    c.toNat = 0x3000 := by
  unfold isWS at h
  simp only [Bool.or_eq_true, Bool.and_eq_true, decide_eq_true_eq] at h
  omega

/-- A numeral character is not whitespace. -/
theorem isNumChar_not_ws (c : Char) (h : isNumChar c = true) : isWS c = false := by
  cases hw : isWS c with
  | false => rfl
  | true =>
    exfalso
    have hws := isWS_cases c hw
    unfold isNumChar isCJKNumeral isPyDigit at h
    simp only [Bool.or_eq_true, Bool.and_eq_true, decide_eq_true_eq] at h
    omega

/-- A numeral character is not a newline and not a bracket. -/
theorem isNumChar_ne (c : Char) (h : isNumChar c = true) : c ≠ '\n' ∧ c ≠ '[' := by
  constructor
  · intro hc
    subst hc
    revert h
    decide
  · intro hc
    subst hc
    revert h
    decide

/-- Facts about the enumeration separator class. -/
theorem isSepDot_facts (c : Char) (h : isSepDot c = true) :
    isWS c = false ∧ c ≠ '\n' ∧ c ≠ '[' ∧ isNumChar c = false ∧ isPunctEnd c = false := by
  unfold isSepDot at h
  simp only [Bool.or_eq_true, decide_eq_true_eq] at h
  rcases h with h | h
  all_goals subst h
  all_goals exact ⟨by decide, by decide, by decide, by decide, by decide⟩

/-- Facts about the opening-bracket class. -/
theorem isOpenBr_facts (c : Char) (h : isOpenBr c = true) :
    isWS c = false ∧ c ≠ '\n' ∧ c ≠ '[' ∧ isNumChar c = false ∧ isPunctEnd c = false := by
  unfold isOpenBr at h
  simp only [Bool.or_eq_true, decide_eq_true_eq] at h
  rcases h with h | h
  all_goals subst h
  all_goals exact ⟨by decide, by decide, by decide, by decide, by decide⟩

/-- Facts about the closing-bracket class. -/
theorem isCloseBr_facts (c : Char) (h : isCloseBr c = true) :
    isWS c = false ∧ c ≠ '\n' ∧ c ≠ '[' ∧ isNumChar c = false ∧ isPunctEnd c = false := by
  unfold isCloseBr at h
  simp only [Bool.or_eq_true, decide_eq_true_eq] at h
  rcases h with h | h
  all_goals subst h
  all_goals exact ⟨by decide, by decide, by decide, by decide, by decide⟩

/-- Facts about the sentence-final punctuation class. -/
theorem isPunctEnd_facts (c : Char) (h : isPunctEnd c = true) :
    isWS c = false ∧ c ≠ '\n' ∧ c ≠ '[' ∧ isNumChar c = false := by
  unfold isPunctEnd at h
  simp only [Bool.or_eq_true, decide_eq_true_eq] at h
  rcases h with ((h | h) | h) | h
  all_goals subst h
  all_goals exact ⟨by decide, by decide, by decide, by decide⟩

/-- Whitespace is never the bracket character. -/
theorem isWS_ne_br (c : Char) (h : isWS c = true) : c ≠ '[' := by
  intro hc
  subst hc
  revert h
  decide

/-- Whitespace is not sentence-final punctuation. -/
theorem isWS_not_punct (c : Char) (h : isWS c = true) : isPunctEnd c = false := by
  cases hp : isPunctEnd c with
  | false => rfl
  | true =>
    exfalso
    have h1 := (isPunctEnd_facts c hp).1
    rw [h1] at h
    exact Bool.false_ne_true h

/-- A marker is non-empty and consists of non-newline, non-bracket,
non-whitespace characters. -/
theorem IsMarker_facts (m : Str) (h : IsMarker m) :
    m ≠ [] ∧ ∀ c ∈ m, c ≠ '\n' ∧ c ≠ '[' ∧ isWS c = false := by
  rcases h with ⟨c, run, s, rfl, hc, hrun, hs⟩ | ⟨c, run, s, rfl, hc, _, hrun, hs⟩
  · refine ⟨by simp, ?_⟩
    intro x hx
    rcases List.mem_cons.mp hx with rfl | hx
    · exact ⟨(isNumChar_ne x hc).1, (isNumChar_ne x hc).2, isNumChar_not_ws x hc⟩
    · rcases List.mem_append.mp hx with hx | hx
      · have hn := hrun x hx
        exact ⟨(isNumChar_ne x hn).1, (isNumChar_ne x hn).2, isNumChar_not_ws x hn⟩
      · rw [List.mem_singleton.mp hx]
        obtain ⟨h1, h2, h3, _, _⟩ := isSepDot_facts s hs
        exact ⟨h2, h3, h1⟩
  · refine ⟨by simp, ?_⟩
    intro x hx
    rcases List.mem_cons.mp hx with rfl | hx
    · obtain ⟨h1, h2, h3, _, _⟩ := isOpenBr_facts x hc
      exact ⟨h2, h3, h1⟩
    · rcases List.mem_append.mp hx with hx | hx
      · have hn := hrun x hx
        exact ⟨(isNumChar_ne x hn).1, (isNumChar_ne x hn).2, isNumChar_not_ws x hn⟩
      · rw [List.mem_singleton.mp hx]
        obtain ⟨h1, h2, h3, _, _⟩ := isCloseBr_facts s hs
        exact ⟨h2, h3, h1⟩

/-- A group's characters are never the bracket. -/
theorem IsGroup_facts (g : Str) (h : IsGroup g) :
    ∀ c ∈ g, c ≠ '[' := by
  obtain ⟨ws, m, rfl, hws, hm⟩ := h
  intro c hc
  rcases List.mem_append.mp hc with hc | hc
  · exact isWS_ne_br c (hws c hc)
  · exact ((IsMarker_facts m hm).2 c hc).2.1

/-- The placeholder contains no newline and no whitespace. -/
theorem PH_facts : (∀ c ∈ PH, c ≠ '\n') ∧ (∀ c ∈ PH, isWS c = false) := by
  constructor <;> decide

/-- A numeral is not sentence-final punctuation. -/
theorem not_punct_of_numChar (c : Char) (h : isNumChar c = true) : isPunctEnd c = false := by
  cases hp : isPunctEnd c with
  | false => rfl
  | true =>
    have h2 := (isPunctEnd_facts c hp).2.2.2
    rw [h] at h2
    exact absurd h2 (by simp)

/-- No group character is sentence-final punctuation. -/
theorem IsGroup_not_punct (g : Str) (h : IsGroup g) :
    ∀ c ∈ g, isPunctEnd c = false := by
  obtain ⟨ws, m, rfl, hws, hm⟩ := h
  intro c hc
  rcases List.mem_append.mp hc with hc | hc
  · exact isWS_not_punct c (hws c hc)
  · rcases hm with ⟨x, run, s, heq, hx, hrun, hs⟩ | ⟨x, run, s, heq, hx, _, hrun, hs⟩
    · rw [heq] at hc
      rcases List.mem_cons.mp hc with rfl | hc
      · exact not_punct_of_numChar c hx
      · rcases List.mem_append.mp hc with hc | hc
        · exact not_punct_of_numChar c (hrun c hc)
        · rw [List.mem_singleton.mp hc]
          exact (isSepDot_facts s hs).2.2.2.2
    · rw [heq] at hc
      rcases List.mem_cons.mp hc with rfl | hc
      · exact (isOpenBr_facts c hx).2.2.2.2
      · rcases List.mem_append.mp hc with hc | hc
        · exact not_punct_of_numChar c (hrun c hc)
        · rw [List.mem_singleton.mp hc]
          exact (isCloseBr_facts s hs).2.2.2.2

/-- Step A produces the `SubAOut` shape on bracket-free input. -/
theorem subA_out (v : Str) : '[' ∉ v → SubAOut (subA v) := by
  induction v using subA.induct with
  | case1 c₁ c₂ t hcond ih =>
    intro h
    have hp : isPunctEnd c₁ = true := by
      simp only [Bool.and_eq_true] at hcond
      exact hcond.2
    have hc1 : '[' ∉ t := fun hx => h (List.mem_cons_of_mem c₁ (List.mem_cons_of_mem c₂ hx))
    simp only [subA, hcond, if_true]
    exact SubAOut.pblk c₁ (subA t) hp (ih hc1)
  | case2 c₁ c₂ t hcond ih =>
    intro h
    have hc1 : c₁ ≠ '[' := fun hx => h (hx ▸ List.mem_cons_self c₁ (c₂ :: t))
    have hrest : '[' ∉ c₂ :: t := fun hx => h (List.mem_cons_of_mem c₁ hx)
    simp only [subA, hcond, if_false]
    exact SubAOut.ch c₁ (subA (c₂ :: t)) hc1 (ih hrest)
  | case3 c =>
    intro h
    have hc : c ≠ '[' := fun hx => h (hx ▸ List.mem_cons_self c [])
    exact SubAOut.ch c [] hc SubAOut.nil
  | case4 =>
    intro _
    exact SubAOut.nil

/-- Dropping the length of `takeWhile` is `dropWhile`. -/
theorem drop_length_takeWhile (p : Char → Bool) (l : Str) :
    l.drop (l.takeWhile p).length = l.dropWhile p := by
  induction l with
  | nil => rfl
  | cons c t ih =>
    cases hc : p c with
    | true => simp [List.takeWhile_cons, List.dropWhile_cons, hc, ih]
    | false => simp [List.takeWhile_cons, List.dropWhile_cons, hc]

/-- A successful marker lookahead splits the text into a group and a rest. -/
theorem tryMarker_some (l : Str) (k : Nat) (h : tryMarker l = some k) :
    ∃ g rest, l = g ++ rest ∧ g.length = k ∧ IsGroup g := by
  unfold tryMarker at h
  simp only [drop_length_takeWhile] at h
  split at h
  next c t heq =>
    split at h
    next hnum =>
      split at h
      next s t2 heq2 =>
        split at h
        next hsep =>
          have hk := Option.some.inj h
          refine ⟨l.takeWhile isWS ++ c :: (t.takeWhile isNumChar ++ [s]), t2, ?_, ?_, ?_⟩
          · have hts : t.takeWhile isNumChar ++ s :: t2 = t := by
              conv_rhs => rw [← List.takeWhile_append_dropWhile isNumChar t]
              rw [heq2]
            conv_lhs => rw [← List.takeWhile_append_dropWhile isWS l]
            rw [heq]
            conv_lhs => rw [← hts]
            simp
          · simp only [List.length_append, List.length_cons, List.length_nil]
            omega
          · refine ⟨l.takeWhile isWS, c :: (t.takeWhile isNumChar ++ [s]), rfl,
              fun x hx => List.mem_takeWhile_imp hx, Or.inl ?_⟩
            exact ⟨c, t.takeWhile isNumChar, s, rfl, hnum,
              fun x hx => List.mem_takeWhile_imp hx, hsep⟩
        next hsep => exact absurd h (by simp)
      next heq2 => exact absurd h (by simp)
    next hnum =>
      split at h
      next hbr =>
        split at h
        next hrun => exact absurd h (by simp)
        next hrun =>
          split at h
          next s t2 heq2 =>
            split at h
            next hsep =>
              have hk := Option.some.inj h
              refine ⟨l.takeWhile isWS ++ c :: (t.takeWhile isNumChar ++ [s]), t2, ?_, ?_, ?_⟩
              · have hts : t.takeWhile isNumChar ++ s :: t2 = t := by
                  conv_rhs => rw [← List.takeWhile_append_dropWhile isNumChar t]
                  rw [heq2]
                conv_lhs => rw [← List.takeWhile_append_dropWhile isWS l]
                rw [heq]
                conv_lhs => rw [← hts]
                simp
              · simp only [List.length_append, List.length_cons, List.length_nil]
                omega
              · refine ⟨l.takeWhile isWS, c :: (t.takeWhile isNumChar ++ [s]), rfl,
                  fun x hx => List.mem_takeWhile_imp hx, Or.inr ?_⟩
                refine ⟨c, t.takeWhile isNumChar, s, rfl, hbr, ?_,
                  fun x hx => List.mem_takeWhile_imp hx, hsep⟩
                intro hnil
                rw [hnil] at hrun
                exact hrun rfl
            next hsep => exact absurd h (by simp)
          next heq2 => exact absurd h (by simp)
      next hbr => exact absurd h (by simp)
  next heq => exact absurd h (by simp)

/-- The skip mode of `subBgo` copies exactly the group characters. -/
theorem subBgo_skip (t : Str) : ∀ k, subBgo t k = t.take k ++ subBgo (t.drop k) 0 := by
  induction t with
  | nil => intro k; simp [subBgo]
  | cons c t ih =>
    intro k
    cases k with
    | zero => simp
    | succ k =>
      simp only [subBgo, List.take_succ_cons, List.drop_succ_cons, List.cons_append]
      rw [ih k]

/-- Scan step of `subBgo` at a newline. -/
theorem subBgo_cons_nl (t : Str) :
    subBgo ('\n' :: t) 0 =
      (match tryMarker t with
       | some k => PH ++ subBgo t k
       | none => '\n' :: subBgo t 0) := rfl

/-- Scan step of `subBgo` at a non-newline character. -/
theorem subBgo_cons_ne (c : Char) (t : Str) (h : c ≠ '\n') :
    subBgo (c :: t) 0 = c :: subBgo t 0 := by
  simp [subBgo, h]

/-- `subBgo` copies a newline-free prefix unchanged. -/
theorem subBgo_copy (xs : Str) (hx : ∀ c ∈ xs, c ≠ '\n') :
    ∀ t, subBgo (xs ++ t) 0 = xs ++ subBgo t 0 := by
  induction xs with
  | nil => intro t; rfl
  | cons c xs ih =>
    intro t
    have hc : c ≠ '\n' := hx c (List.mem_cons_self c xs)
    rw [List.cons_append, subBgo_cons_ne c (xs ++ t) hc,
      ih (fun x h => hx x (List.mem_cons_of_mem c h)) t]
    rfl

/-- Inversion of `SubAOut` at a non-punctuation head. -/
theorem subAOut_inv_cons (x : Char) (w' : Str) (h : SubAOut (x :: w'))
    (hx : isPunctEnd x = false) : SubAOut w' := by
  cases h with
  | ch _ _ _ hw => exact hw
  | pblk _ _ hp hw =>
    rw [hp] at hx
    exact absurd hx (by simp)

/-- Consuming punctuation-free characters preserves `SubAOut`. -/
theorem subAOut_drop_group (g : Str) (hg : ∀ c ∈ g, isPunctEnd c = false) :
    ∀ w rest, SubAOut w → w = g ++ rest → SubAOut rest := by
  induction g with
  | nil =>
    intro w rest hw heq
    rw [List.nil_append] at heq
    exact heq ▸ hw
  | cons c g ih =>
    intro w rest hw heq
    subst heq
    have h1 : SubAOut (g ++ rest) :=
      subAOut_inv_cons c (g ++ rest) hw (hg c (List.mem_cons_self c g))
    exact ih (fun x hx => hg x (List.mem_cons_of_mem c hx)) (g ++ rest) rest h1 rfl

/-- Step B produces the `SubBOut` shape on `SubAOut` input. -/
theorem subB_out_fuel : ∀ (n : Nat) (w : Str), w.length ≤ n → SubAOut w → SubBOut (subB w) := by
  intro n
  induction n with
  | zero =>
    intro w hlen hw
    have hnil : w = [] := List.eq_nil_of_length_eq_zero (Nat.le_zero.mp hlen)
    subst hnil
    exact SubBOut.nil
  | succ n ih =>
    intro w hlen hw
    cases hw with
    | nil => exact SubBOut.nil
    | ch c t hc ht =>
      have hlt : t.length ≤ n := by
        simp only [List.length_cons] at hlen
        omega
      by_cases hcn : c = '\n'
      · subst hcn
        unfold subB
        rw [subBgo_cons_nl]
        cases htm : tryMarker t with
        | none =>
          exact SubBOut.ch '\n' (subBgo t 0) (by decide) (ih t hlt ht)
        | some k =>
          obtain ⟨g, rest, hsplit, hklen, hgrp⟩ := tryMarker_some t k htm
          have hrest : SubAOut rest :=
            subAOut_drop_group g (IsGroup_not_punct g hgrp) t rest ht hsplit
          have hrlen : rest.length ≤ n := by
            have : t.length = g.length + rest.length := by
              rw [hsplit, List.length_append]
            omega
          have hb := ih rest hrlen hrest
          show SubBOut (PH ++ subBgo t k)
          rw [subBgo_skip t k]
          have htake : t.take k = g := by
            rw [hsplit, ← hklen, List.take_left]
          have hdrop : t.drop k = rest := by
            rw [hsplit, ← hklen, List.drop_left]
          rw [htake, hdrop]
          exact SubBOut.mblk g (subBgo rest 0) hgrp hb
      · unfold subB
        rw [subBgo_cons_ne c t hcn]
        exact SubBOut.ch c (subBgo t 0) hc (ih t hlt ht)
    | pblk c t hp ht =>
      have hlt : t.length ≤ n := by
        simp only [List.length_cons, List.length_append] at hlen
        simp only [PH, List.length_cons, List.length_nil] at hlen
        omega
      have hcn : c ≠ '\n' := (isPunctEnd_facts c hp).2.1
      unfold subB
      rw [subBgo_cons_ne c (PH ++ t) hcn, subBgo_copy PH PH_facts.1 t]
      exact SubBOut.pblk c (subBgo t 0) hp (ih t hlt ht)

/-- Step B on step A's output, packaged. -/
theorem subB_out (w : Str) (h : SubAOut w) : SubBOut (subB w) :=
  subB_out_fuel w.length w Nat.le.refl h

/-- A list starts with itself as prefix. -/
theorem startsWithList_self_append (p : Str) : ∀ t, startsWithList p (p ++ t) = true := by
  induction p with
  | nil => intro t; rfl
  | cons c p ih =>
    intro t
    simp [List.cons_append, startsWithList, ih t]

/-- The skip mode of `restoreGo` discards exactly the matched characters. -/
theorem restoreGo_skip (t : Str) : ∀ k, restoreGo t k = restoreGo (t.drop k) 0 := by
  induction t with
  | nil => intro k; cases k <;> rfl
  | cons c t ih =>
    intro k
    cases k with
    | zero => rfl
    | succ k =>
      show restoreGo t k = _
      rw [ih k]
      rfl

/-- `restoreGo` copies a character other than `[`. -/
theorem restoreGo_cons_ne (c : Char) (t : Str) (h : c ≠ '[') :
    restoreGo (c :: t) 0 = c :: restoreGo t 0 := by
  have hs : startsWithList PH (c :: t) = false := by
    simp only [PH, startsWithList]
    simp [Ne.symm h]
  show (if startsWithList PH (c :: t) then '\n' :: restoreGo t 11 else c :: restoreGo t 0) = _
  rw [hs]
  simp

/-- `restoreGo` rewrites a placeholder block into a newline. -/
theorem restoreGo_PH (t : Str) : restoreGo (PH ++ t) 0 = '\n' :: restoreGo t 0 := by
  have h1 : PH ++ t = '[' :: (['L', 'O', 'G', 'I', 'C', 'A', 'L', '_', 'N', 'L', ']'] ++ t) := rfl
  rw [h1]
  show (if startsWithList PH ('[' :: (['L', 'O', 'G', 'I', 'C', 'A', 'L', '_', 'N', 'L', ']'] ++ t))
        then '\n' :: restoreGo (['L', 'O', 'G', 'I', 'C', 'A', 'L', '_', 'N', 'L', ']'] ++ t) 11
        else _) = _
  rw [← h1, startsWithList_self_append PH t]
  simp only [if_true]
  rw [restoreGo_skip]
  have : (['L', 'O', 'G', 'I', 'C', 'A', 'L', '_', 'N', 'L', ']'] ++ t).drop 11 = t := rfl
  rw [this]

/-- `restoreGo` copies a bracket-free prefix unchanged. -/
theorem restoreGo_copy (xs : Str) (hx : ∀ c ∈ xs, c ≠ '[') :
    ∀ t, restoreGo (xs ++ t) 0 = xs ++ restoreGo t 0 := by
  induction xs with
  | nil => intro t; rfl
  | cons c xs ih =>
    intro t
    rw [List.cons_append, restoreGo_cons_ne c (xs ++ t) (hx c (List.mem_cons_self c xs)),
      ih (fun x h => hx x (List.mem_cons_of_mem c h)) t]
    rfl

/-- `dropNL` copies a non-newline head. -/
theorem dropNL_cons_ne (c : Char) (t : Str) (h : c ≠ '\n') :
    dropNL (c :: t) = c :: dropNL t := by
  unfold dropNL
  simp [List.filter_cons, h]

/-- `dropNL` keeps a newline-free list unchanged. -/
theorem dropNL_of_noNL (x : Str) (h : ∀ c ∈ x, c ≠ '\n') : dropNL x = x := by
  unfold dropNL
  rw [List.filter_eq_self]
  intro a ha
  simp [h a ha]

/-- `dropNL` distributes over append. -/
theorem dropNL_append (a b : Str) : dropNL (a ++ b) = dropNL a ++ dropNL b :=
  List.filter_append a b

/-- The restored, newline-erased image of step B's output has the `Brk`
shape. -/
theorem brk_of_subBOut (u : Str) (h : SubBOut u) : Brk (restorePH (dropNL u)) := by
  induction h with
  | nil => exact Brk.nil
  | ch c t hc _ ih =>
    by_cases hcn : c = '\n'
    · subst hcn
      have : dropNL ('\n' :: t) = dropNL t := by
        unfold dropNL
        simp
      rw [this]
      exact ih
    · rw [dropNL_cons_ne c t hcn]
      unfold restorePH
      rw [restoreGo_cons_ne c (dropNL t) hc]
      exact Brk.ch c (restoreGo (dropNL t) 0) hc hcn ih
  | pblk c t hp _ ih =>
    obtain ⟨_, hcn, hcb, _⟩ := isPunctEnd_facts c hp
    have h1 : dropNL (c :: (PH ++ t)) = c :: (PH ++ dropNL t) := by
      rw [dropNL_cons_ne c (PH ++ t) hcn, dropNL_append PH t,
        dropNL_of_noNL PH PH_facts.1]
    rw [h1]
    unfold restorePH
    rw [restoreGo_cons_ne c (PH ++ dropNL t) hcb, restoreGo_PH (dropNL t)]
    exact Brk.pbrk c (restoreGo (dropNL t) 0) hp ih
  | mblk g t hg _ ih =>
    obtain ⟨ws, m, rfl, hws, hm⟩ := hg
    obtain ⟨hmne, hmchars⟩ := IsMarker_facts m hm
    have hmnl : ∀ c ∈ m, c ≠ '\n' := fun c hc => (hmchars c hc).1
    have h1 : dropNL (PH ++ ((ws ++ m) ++ t)) = PH ++ (dropNL ws ++ (m ++ dropNL t)) := by
      rw [dropNL_append, dropNL_append, dropNL_append,
        dropNL_of_noNL PH PH_facts.1, dropNL_of_noNL m hmnl]
      simp [List.append_assoc]
    rw [h1]
    unfold restorePH
    rw [restoreGo_PH]
    have hbr : ∀ c ∈ dropNL ws ++ m, c ≠ '[' := by
      intro c hc
      rcases List.mem_append.mp hc with hc | hc
      · have : c ∈ ws := List.mem_of_mem_filter hc
        exact isWS_ne_br c (hws c this)
      · exact (hmchars c hc).2.1
    have h2 : restoreGo (dropNL ws ++ (m ++ dropNL t)) 0
        = (dropNL ws ++ m) ++ restoreGo (dropNL t) 0 := by
      rw [← List.append_assoc]
      exact restoreGo_copy (dropNL ws ++ m) hbr (dropNL t)
    rw [h2]
    have hws2 : ∀ c ∈ dropNL ws, isWS c = true ∧ c ≠ '\n' := by
      intro c hc
      refine ⟨hws c (List.mem_of_mem_filter hc), ?_⟩
      have := List.of_mem_filter hc
      simpa using this
    exact Brk.mbrk (dropNL ws) m (restoreGo (dropNL t) 0) hws2 hm ih

/-- A non-empty list is its head consed on its tail. -/
theorem headI_cons_tail (l : List Str) (h : l ≠ []) : l.headI :: l.tail = l := by
  cases l with
  | nil => exact absurd rfl h
  | cons x t => rfl

/-- One scan step of `splitNL` at a non-newline character, raw form. -/
theorem splitNL_cons_ne_eq (c : Char) (t : Str) (h : c ≠ '\n') :
    splitNL (c :: t) = (match splitNL t with
      | h0 :: r0 => (c :: h0) :: r0
      | [] => [[c]]) := by
  conv_lhs => unfold splitNL
  split
  next heq => exact absurd heq (by simp)
  next x heq =>
    injection heq with h1 h2
    exact absurd h1 h
  next x c2 t2 hne heq =>
    injection heq with h1 h2
    subst h1
    subst h2
    rfl

/-- `splitNL` always produces at least one part. -/
theorem splitNL_ne_nil (y : Str) : splitNL y ≠ [] := by
  induction y with
  | nil => simp [splitNL]
  | cons c t ih =>
    by_cases hc : c = '\n'
    · subst hc
      show [] :: splitNL t ≠ []
      simp
    · rw [splitNL_cons_ne_eq c t hc]
      cases hs : splitNL t with
      | nil => simp
      | cons h0 r0 => simp

/-- `splitNL` at a non-newline character extends the first part. -/
theorem splitNL_cons_ne (c : Char) (t : Str) (h : c ≠ '\n') :
    splitNL (c :: t) = (c :: (splitNL t).headI) :: (splitNL t).tail := by
  rw [splitNL_cons_ne_eq c t h]
  cases hs : splitNL t with
  | nil => exact absurd hs (splitNL_ne_nil t)
  | cons h0 r0 => simp

/-- `splitNL` after a newline-free prefix. -/
theorem splitNL_prepend (xs : Str) (hx : ∀ c ∈ xs, c ≠ '\n') :
    ∀ y, splitNL (xs ++ y) = (xs ++ (splitNL y).headI) :: (splitNL y).tail := by
  induction xs with
  | nil =>
    intro y
    simp only [List.nil_append]
    exact (headI_cons_tail (splitNL y) (splitNL_ne_nil y)).symm
  | cons c xs ih =>
    intro y
    rw [List.cons_append, splitNL_cons_ne c (xs ++ y) (hx c (List.mem_cons_self c xs)),
      ih (fun x h => hx x (List.mem_cons_of_mem c h)) y]
    simp

/-- `removeWS` drops a whitespace head. -/
theorem removeWS_cons_ws (c : Char) (t : Str) (h : isWS c = true) :
    removeWS (c :: t) = removeWS t := by
  unfold removeWS
  simp [List.filter_cons, h]

/-- `removeWS` keeps a non-whitespace head. -/
theorem removeWS_cons_not (c : Char) (t : Str) (h : isWS c = false) :
    removeWS (c :: t) = c :: removeWS t := by
  unfold removeWS
  simp [List.filter_cons, h]

/-- `removeWS` distributes over append. -/
theorem removeWS_append (a b : Str) : removeWS (a ++ b) = removeWS a ++ removeWS b :=
  List.filter_append a b

/-- `removeWS` erases all-whitespace text. -/
theorem removeWS_allws (ws : Str) (h : ∀ c ∈ ws, isWS c = true) : removeWS ws = [] := by
  unfold removeWS
  rw [List.filter_eq_nil_iff]
  intro c hc
  simp [h c hc]

/-- `removeWS` keeps whitespace-free text unchanged. -/
theorem removeWS_noWS (m : Str) (h : ∀ c ∈ m, isWS c = false) : removeWS m = m := by
  unfold removeWS
  rw [List.filter_eq_self]
  intro c hc
  simp [h c hc]

/-- The kept-lines step. -/
theorem cleanLines_cons (l : Str) (ls : List Str) :
    cleanLines (l :: ls) =
      if removeWS l = [] then cleanLines ls else removeWS l :: cleanLines ls := by
  unfold cleanLines
  rw [List.map_cons, List.filter_cons]
  by_cases h : removeWS l = []
  · simp [h]
  · simp [h]

/-- The kept lines decompose through the first cleaned segment. -/
theorem smK_eq (y : Str) :
    smK y = if smFirst y = [] then smTail y else smFirst y :: smTail y := by
  unfold smK smFirst smTail
  conv_lhs => rw [← headI_cons_tail (splitNL y) (splitNL_ne_nil y)]
  rw [cleanLines_cons]

/-- `smFirst` over a non-newline character. -/
theorem smFirst_cons_ne (c : Char) (t : Str) (h : c ≠ '\n') :
    smFirst (c :: t) = removeWS (c :: (splitNL t).headI) := by
  unfold smFirst
  rw [splitNL_cons_ne c t h]
  rfl

/-- `smTail` over a non-newline character. -/
theorem smTail_cons_ne (c : Char) (t : Str) (h : c ≠ '\n') :
    smTail (c :: t) = smTail t := by
  unfold smTail
  rw [splitNL_cons_ne c t h]
  rfl

/-- `getLast?` through an append with non-empty right part. -/
theorem getLast?_append_ne (a : Str) : ∀ b : Str, b ≠ [] →
    (a ++ b).getLast? = b.getLast? := by
  induction a with
  | nil => intro b _; rfl
  | cons x a ih =>
    intro b hb
    have hne : a ++ b ≠ [] := by
      intro hx
      rcases List.append_eq_nil.mp hx with ⟨_, h2⟩
      exact hb h2
    rw [List.cons_append, getLast?_cons_of_ne x (a ++ b) hne]
    exact ih b hb

/-- Transfer of the boundary relation when the left line is extended on the
left by a prefix (the left line non-empty). -/
theorem relNL_extend (p a b : Str) (ha : a ≠ []) (h : RelNL a b) : RelNL (p ++ a) b := by
  rcases h with ⟨c, hlast, hpunct⟩ | hsm
  · exact Or.inl ⟨c, by rw [getLast?_append_ne p a ha]; exact hlast, hpunct⟩
  · exact Or.inr hsm

/-- Prepending non-whitespace, non-bracket characters to the first kept line
preserves the normal form. -/
theorem normal_prepend (p t : Str)
    (hp : p ≠ []) (hpc : ∀ c ∈ p, isWS c = false ∧ c ≠ '[')
    (hN : NormalLines (smK t)) (hHM : smFirst t = [] → HeadMarker (smK t)) :
    NormalLines ((p ++ smFirst t) :: smTail t) := by
  constructor
  · intro l hl
    rcases List.mem_cons.mp hl with rfl | hl
    · refine ⟨by simp [hp], ?_⟩
      intro c hc
      rcases List.mem_append.mp hc with hc | hc
      · exact hpc c hc
      · by_cases hF : smFirst t = []
        · rw [hF] at hc
          exact absurd hc (by simp)
        · have hKt : smK t = smFirst t :: smTail t := by rw [smK_eq t, if_neg hF]
          exact (hN.1 (smFirst t) (by rw [hKt]; exact List.mem_cons_self _ _)).2 c hc
    · have hmem : l ∈ smK t := by
        rw [smK_eq t]
        by_cases hF : smFirst t = []
        · rw [if_pos hF]
          exact hl
        · rw [if_neg hF]
          exact List.mem_cons_of_mem _ hl
      exact hN.1 l hmem
  · rw [List.chain'_cons']
    constructor
    · intro b hb
      by_cases hF : smFirst t = []
      · have hKt : smK t = smTail t := by rw [smK_eq t, if_pos hF]
        have hhm := hHM hF
        rw [hKt] at hhm
        rcases hhm with hnil | hsm
        · rw [hnil] at hb
          exact absurd hb (by simp)
        · have hbh : b = (smTail t).headI := by
            cases hs : smTail t with
            | nil =>
              rw [hs] at hb
              exact absurd hb (by simp)
            | cons x r =>
              rw [hs] at hb
              simp only [List.head?_cons, Option.mem_def, Option.some.injEq] at hb
              rw [← hb]
              rfl
          rw [hbh]
          exact Or.inr hsm
      · have hKt : smK t = smFirst t :: smTail t := by rw [smK_eq t, if_neg hF]
        have hchain := hN.2
        rw [hKt, List.chain'_cons'] at hchain
        exact relNL_extend p (smFirst t) b hF (hchain.1 b hb)
    · by_cases hF : smFirst t = []
      · have hKt : smK t = smTail t := by rw [smK_eq t, if_pos hF]
        have := hN.2
        rw [hKt] at this
        exact this
      · have hKt : smK t = smFirst t :: smTail t := by rw [smK_eq t, if_neg hF]
        have := hN.2
        rw [hKt, List.chain'_cons'] at this
        exact this.2

/-- The `Brk` shape yields the normal form of the kept lines, together with
the marker property of the first segment when it cleans to nothing. -/
theorem brk_normal (y : Str) (h : Brk y) :
    NormalLines (smK y) ∧ (smFirst y = [] → HeadMarker (smK y)) := by
  induction h with
  | nil =>
    refine ⟨⟨?_, ?_⟩, ?_⟩
    · intro l hl
      have h0 : smK [] = [] := rfl
      rw [h0] at hl
      exact absurd hl (by simp)
    · have h0 : smK [] = [] := rfl
      rw [h0]
      exact List.chain'_nil
    · intro _
      left
      rfl
  | ch c t hcb hcn _ ih =>
    have eT := smTail_cons_ne c t hcn
    have eF := smFirst_cons_ne c t hcn
    by_cases hw : isWS c = true
    · have e1 : smFirst (c :: t) = smFirst t := by
        rw [eF, removeWS_cons_ws c _ hw]
        rfl
      have e2 : smK (c :: t) = smK t := by
        rw [smK_eq (c :: t), e1, eT, ← smK_eq t]
      rw [e1, e2]
      exact ih
    · have hwf : isWS c = false := by
        cases hwc : isWS c with
        | false => rfl
        | true => exact absurd hwc hw
      have e1 : smFirst (c :: t) = c :: smFirst t := by
        rw [eF, removeWS_cons_not c _ hwf]
        rfl
      have e2 : smK (c :: t) = (c :: smFirst t) :: smTail t := by
        rw [smK_eq (c :: t), e1, eT]
        rw [if_neg (by simp)]
      rw [e2]
      constructor
      · have hres := normal_prepend [c] t (by simp)
          (by
            intro x hx
            rw [List.mem_singleton.mp hx]
            exact ⟨hwf, hcb⟩) ih.1 ih.2
        rw [List.singleton_append] at hres
        exact hres
      · intro hFF
        rw [e1] at hFF
        exact absurd hFF (by simp)
  | pbrk c t hp _ ih =>
    obtain ⟨hcw, hcn, hcb, _⟩ := isPunctEnd_facts c hp
    have hsplit : splitNL (c :: '\n' :: t) = [c] :: splitNL t := by
      rw [splitNL_cons_ne c ('\n' :: t) hcn]
      have h2 : splitNL ('\n' :: t) = [] :: splitNL t := rfl
      rw [h2]
      rfl
    have hrw : removeWS [c] = [c] := by
      rw [removeWS_cons_not c [] hcw]
      rfl
    have eF : smFirst (c :: '\n' :: t) = [c] := by
      unfold smFirst
      rw [hsplit]
      exact hrw
    have eK : smK (c :: '\n' :: t) = [c] :: smK t := by
      unfold smK
      rw [hsplit, cleanLines_cons, hrw]
      rw [if_neg (by simp)]
    rw [eK]
    refine ⟨⟨?_, ?_⟩, ?_⟩
    · intro l hl
      rcases List.mem_cons.mp hl with rfl | hl
      · refine ⟨by simp, ?_⟩
        intro x hx
        rw [List.mem_singleton.mp hx]
        exact ⟨hcw, hcb⟩
      · exact ih.1.1 l hl
    · rw [List.chain'_cons']
      refine ⟨?_, ih.1.2⟩
      intro b _
      exact Or.inl ⟨c, by simp, hp⟩
    · intro hFF
      rw [eF] at hFF
      exact absurd hFF (by simp)
  | mbrk ws m t hws hm _ ih =>
    obtain ⟨hmne, hmchars⟩ := IsMarker_facts m hm
    have hxs : ∀ c ∈ ws ++ m, c ≠ '\n' := by
      intro c hc
      rcases List.mem_append.mp hc with hc | hc
      · exact (hws c hc).2
      · exact (hmchars c hc).1
    have hz : splitNL ('\n' :: (ws ++ m ++ t)) = [] :: splitNL (ws ++ m ++ t) := rfl
    have hzz := splitNL_prepend (ws ++ m) hxs t
    have eF0 : smFirst ('\n' :: (ws ++ m ++ t)) = [] := by
      unfold smFirst
      rw [hz]
      rfl
    have eK0 : smK ('\n' :: (ws ++ m ++ t)) = smK (ws ++ m ++ t) := by
      unfold smK
      rw [hz, cleanLines_cons]
      have h00 : removeWS ([] : Str) = [] := rfl
      rw [if_pos h00]
    have eFz : smFirst (ws ++ m ++ t) = m ++ smFirst t := by
      unfold smFirst
      rw [hzz]
      show removeWS ((ws ++ m) ++ (splitNL t).headI) = _
      rw [removeWS_append, removeWS_append, removeWS_allws ws (fun c hc => (hws c hc).1),
        removeWS_noWS m (fun c hc => (hmchars c hc).2.2)]
      rfl
    have eTz : smTail (ws ++ m ++ t) = smTail t := by
      unfold smTail
      rw [hzz]
      rfl
    have eKz : smK (ws ++ m ++ t) = (m ++ smFirst t) :: smTail t := by
      rw [smK_eq, eFz, eTz, if_neg (by simp [hmne])]
    rw [eK0, eKz]
    have hN := normal_prepend m t hmne
      (fun c hc => ⟨(hmchars c hc).2.2, (hmchars c hc).2.1⟩) ih.1 ih.2
    refine ⟨hN, ?_⟩
    intro _
    right
    exact ⟨m, smFirst t, rfl, hm⟩

/-- `dropWhile` only keeps characters of the input. -/
theorem mem_of_dropWhile (p : Char → Bool) : ∀ (l : Str) (c : Char), c ∈ l.dropWhile p → c ∈ l := by
  intro l
  induction l with
  | nil =>
    intro c hc
    simp at hc
  | cons x t ih =>
    intro c hc
    rw [List.dropWhile_cons] at hc
    by_cases hx : p x = true
    · rw [if_pos hx] at hc
      exact List.mem_cons_of_mem x (ih c hc)
    · rw [if_neg hx] at hc
      exact hc

/-- `trimWS` only keeps characters of the input. -/
theorem mem_trimWS (c : Char) (l : Str) (h : c ∈ trimWS l) : c ∈ l := by
  unfold trimWS at h
  rw [List.mem_reverse] at h
  have h1 := mem_of_dropWhile isWS _ c h
  rw [List.mem_reverse] at h1
  exact mem_of_dropWhile isWS l c h1

/-- Scan step of `replCRLF` when the CRLF pattern does not match. -/
theorem replCRLF_cons (c : Char) (t : Str)
    (h : ¬(c = '\r' ∧ t.head? = some '\n')) :
    replCRLF (c :: t) = c :: replCRLF t := by
  conv_lhs => unfold replCRLF
  split
  next t' heq =>
    injection heq with h1 h2
    exact absurd ⟨h1, by rw [h2]; rfl⟩ h
  next x heq =>
    injection heq with h1 h2
    subst h1
    subst h2
    rfl
  next heq => exact absurd heq (by simp)

/-- `replCRLF` only emits characters of the input. -/
theorem mem_replCRLF (c : Char) : ∀ l : Str, c ∈ replCRLF l → c ∈ l := by
  intro l
  induction l using replCRLF.induct with
  | case1 t ih =>
    intro h
    rw [show replCRLF ('\r' :: '\n' :: t) = '\n' :: replCRLF t from rfl] at h
    rcases List.mem_cons.mp h with rfl | h
    · exact List.mem_cons_of_mem _ (List.mem_cons_self _ _)
    · exact List.mem_cons_of_mem _ (List.mem_cons_of_mem _ (ih h))
  | case2 c' t hne ih =>
    intro h
    have heq : replCRLF (c' :: t) = c' :: replCRLF t := by
      refine replCRLF_cons c' t ?_
      rintro ⟨rfl, hh⟩
      cases t with
      | nil => exact absurd hh (by simp)
      | cons y t2 =>
        have hy : y = '\n' := by simpa using hh
        exact hne t2 rfl (by rw [hy])
    rw [heq] at h
    rcases List.mem_cons.mp h with rfl | h
    · exact List.mem_cons_self _ _
    · exact List.mem_cons_of_mem _ (ih h)
  | case3 =>
    intro h
    exact absurd h (by simp [replCRLF])

/-- Scan step of `collapseNL` when no newline pair is present. -/
theorem collapseNL_cons (c : Char) (t : Str)
    (h : ¬(c = '\n' ∧ t.head? = some '\n')) :
    collapseNL (c :: t) = c :: collapseNL t := by
  conv_lhs => unfold collapseNL
  split
  next t' heq =>
    injection heq with h1 h2
    exact absurd ⟨h1, by rw [h2]; rfl⟩ h
  next x heq =>
    injection heq with h1 h2
    subst h1
    subst h2
    rfl
  next heq => exact absurd heq (by simp)

/-- `collapseNL` only emits characters of the input. -/
theorem mem_collapseNL (c : Char) : ∀ l : Str, c ∈ collapseNL l → c ∈ l := by
  intro l
  induction l using collapseNL.induct with
  | case1 t ih =>
    intro h
    rw [show collapseNL ('\n' :: '\n' :: t) = collapseNL ('\n' :: t) from rfl] at h
    exact List.mem_cons_of_mem _ (ih h)
  | case2 x t hne ih =>
    intro h
    have heq : collapseNL (x :: t) = x :: collapseNL t := by
      refine collapseNL_cons x t ?_
      rintro ⟨rfl, hh⟩
      cases t with
      | nil => exact absurd hh (by simp)
      | cons y t2 =>
        have hy : y = '\n' := by simpa using hh
        exact hne t2 rfl (by rw [hy])
    rw [heq] at h
    rcases List.mem_cons.mp h with rfl | h
    · exact List.mem_cons_self _ _
    · exact List.mem_cons_of_mem _ (ih h)
  | case3 =>
    intro h
    exact absurd h (by simp [collapseNL])

/-- On bracket-free input, `smart_merge` produces text in the normal form:
the newline-join of non-empty, whitespace-free, bracket-free lines whose
boundaries all carry sentence-final punctuation on the left or an
enumeration marker on the right. -/
theorem smart_merge_normal (s : Str) (h : '[' ∉ s) :
    ∃ ls, NormalLines ls ∧ smart_merge s = joinNL ls := by
  by_cases hs : s = []
  · refine ⟨[], ⟨by simp, List.chain'_nil⟩, ?_⟩
    rw [hs]
    rfl
  · have hbr : '[' ∉ collapseNL (replCRLF (trimWS s)) := by
      intro hc
      exact h (mem_trimWS '[' s (mem_replCRLF '[' _ (mem_collapseNL '[' _ hc)))
    refine ⟨smK (restorePH (dropNL (subB (subA (collapseNL (replCRLF (trimWS s))))))),
      (brk_normal _ (brk_of_subBOut _ (subB_out _ (subA_out _ hbr)))).1, ?_⟩
    unfold smart_merge smK
    rw [if_neg hs]

/-- A non-whitespace character is not a newline. -/
theorem ne_nl_of_not_ws (c : Char) (h : isWS c = false) : c ≠ '\n' := by
  intro hc
  subst hc
  exact absurd h (by decide)

/-- The characters of a normal-form line are not newlines. -/
theorem lineGood_noNL (l : Str) (h : LineGood l) : ∀ c ∈ l, c ≠ '\n' :=
  fun c hc => ne_nl_of_not_ws c (h.2 c hc).1

/-- The characters of a normal-form line are not brackets. -/
theorem lineGood_noBr (l : Str) (h : LineGood l) : ∀ c ∈ l, c ≠ '[' :=
  fun c hc => (h.2 c hc).2

/-- The head, if any, is a member. -/
theorem mem_of_headQ (l : Str) (c : Char) (h : l.head? = some c) : c ∈ l := by
  cases l with
  | nil => exact absurd h (by simp)
  | cons x t =>
    have hx : x = c := by simpa using h
    rw [← hx]
    exact List.mem_cons_self x t

/-- The last element, if any, is a member. -/
theorem mem_of_getLastQ (l : Str) (c : Char) (h : l.getLast? = some c) : c ∈ l := by
  rw [← List.head?_reverse] at h
  rw [← List.mem_reverse]
  exact mem_of_headQ l.reverse c h

/-- `dropWhile` is the identity when the head fails the test. -/
theorem dropWhile_eq_self_of_head (p : Char → Bool) (l : Str)
    (h : ∀ c, l.head? = some c → p c = false) : l.dropWhile p = l := by
  cases l with
  | nil => rfl
  | cons c t =>
    have hc := h c rfl
    rw [List.dropWhile_cons, hc]
    simp

/-- `trimWS` is the identity when neither end is whitespace. -/
theorem trimWS_eq_self (l : Str)
    (h1 : ∀ c, l.head? = some c → isWS c = false)
    (h2 : ∀ c, l.getLast? = some c → isWS c = false) : trimWS l = l := by
  unfold trimWS
  rw [dropWhile_eq_self_of_head isWS l h1]
  rw [dropWhile_eq_self_of_head isWS l.reverse
    (fun c hc => h2 c (by rw [← List.head?_reverse]; exact hc))]
  exact List.reverse_reverse l

/-- Unfolding `joinNL` on two or more lines. -/
theorem joinNL_eq_cons (l l2 : Str) (r : List Str) :
    joinNL (l :: l2 :: r) = l ++ '\n' :: joinNL (l2 :: r) := rfl

/-- Unfolding `joinPH` on two or more lines. -/
theorem joinPH_eq_cons (l l2 : Str) (r : List Str) :
    joinPH (l :: l2 :: r) = l ++ (PH ++ joinPH (l2 :: r)) := rfl

/-- Unfolding `joinA` on two or more lines. -/
theorem joinA_eq_cons (l l2 : Str) (r : List Str) :
    joinA (l :: l2 :: r) =
      l ++ (if endsPunct l then PH ++ joinA (l2 :: r) else '\n' :: joinA (l2 :: r)) := rfl

/-- The newline-join of lines with a non-empty first line is non-empty. -/
theorem joinNL_ne_nil (ls : List Str) (h : ls ≠ []) (hh : ls.headI ≠ []) :
    joinNL ls ≠ [] := by
  cases ls with
  | nil => exact absurd rfl h
  | cons l r =>
    cases r with
    | nil => exact hh
    | cons l2 r2 =>
      rw [joinNL_eq_cons]
      intro hx
      rcases List.append_eq_nil.mp hx with ⟨_, h2⟩
      exact absurd h2 (by simp)

/-- The head of a newline-join is the head of the first line. -/
theorem joinNL_headQ (ls : List Str) (h : ls ≠ []) (hh : ls.headI ≠ []) :
    (joinNL ls).head? = ls.headI.head? := by
  cases ls with
  | nil => exact absurd rfl h
  | cons l r =>
    cases r with
    | nil => rfl
    | cons l2 r2 =>
      rw [joinNL_eq_cons]
      cases l with
      | nil => exact absurd rfl hh
      | cons c t => rfl

/-- The last character of a newline-join of non-empty lines belongs to one of
the lines. -/
theorem joinNL_getLastQ : ∀ (ls : List Str), (∀ l ∈ ls, l ≠ []) →
    ∀ c, (joinNL ls).getLast? = some c → ∃ l ∈ ls, c ∈ l := by
  intro ls
  induction ls with
  | nil =>
    intro _ c hc
    exact absurd hc (by simp [joinNL])
  | cons l r ih =>
    intro hall c hc
    cases r with
    | nil =>
      exact ⟨l, List.mem_cons_self l [], mem_of_getLastQ l c hc⟩
    | cons l2 r2 =>
      rw [joinNL_eq_cons] at hc
      have hne : joinNL (l2 :: r2) ≠ [] :=
        joinNL_ne_nil (l2 :: r2) (by simp)
          (hall l2 (List.mem_cons_of_mem l (List.mem_cons_self l2 r2)))
      rw [getLast?_append_ne l ('\n' :: joinNL (l2 :: r2)) (by simp)] at hc
      rw [getLast?_cons_of_ne '\n' _ hne] at hc
      obtain ⟨l0, hl0, hcl⟩ := ih (fun x hx => hall x (List.mem_cons_of_mem l hx)) c hc
      exact ⟨l0, List.mem_cons_of_mem l hl0, hcl⟩

/-- A character of a newline-join comes from a line or is the newline. -/
theorem mem_joinNL : ∀ (ls : List Str) (c : Char), c ∈ joinNL ls →
    (∃ l ∈ ls, c ∈ l) ∨ c = '\n' := by
  intro ls
  induction ls with
  | nil =>
    intro c hc
    exact absurd hc (by simp [joinNL])
  | cons l r ih =>
    intro c hc
    cases r with
    | nil => exact Or.inl ⟨l, List.mem_cons_self l [], hc⟩
    | cons l2 r2 =>
      rw [joinNL_eq_cons] at hc
      rcases List.mem_append.mp hc with hc | hc
      · exact Or.inl ⟨l, List.mem_cons_self _ _, hc⟩
      · rcases List.mem_cons.mp hc with rfl | hc
        · exact Or.inr rfl
        · rcases ih c hc with ⟨l0, hl0, hcl⟩ | rfl
          · exact Or.inl ⟨l0, List.mem_cons_of_mem l hl0, hcl⟩
          · exact Or.inr rfl

/-- A character of a placeholder-join comes from a line or the placeholder. -/
theorem mem_joinPH : ∀ (ls : List Str) (c : Char), c ∈ joinPH ls →
    (∃ l ∈ ls, c ∈ l) ∨ c ∈ PH := by
  intro ls
  induction ls with
  | nil =>
    intro c hc
    exact absurd hc (by simp [joinPH])
  | cons l r ih =>
    intro c hc
    cases r with
    | nil => exact Or.inl ⟨l, List.mem_cons_self l [], hc⟩
    | cons l2 r2 =>
      rw [joinPH_eq_cons] at hc
      rcases List.mem_append.mp hc with hc | hc
      · exact Or.inl ⟨l, List.mem_cons_self _ _, hc⟩
      · rcases List.mem_append.mp hc with hc | hc
        · exact Or.inr hc
        · rcases ih c hc with ⟨l0, hl0, hcl⟩ | hph
          · exact Or.inl ⟨l0, List.mem_cons_of_mem l hl0, hcl⟩
          · exact Or.inr hph

/-- `replCRLF` is the identity on text without carriage returns. -/
theorem replCRLF_of_noCR : ∀ l : Str, (∀ c ∈ l, c ≠ '\r') → replCRLF l = l := by
  intro l
  induction l with
  | nil => intro _; rfl
  | cons c t ih =>
    intro h
    rw [replCRLF_cons c t (fun hx => (h c (List.mem_cons_self c t)) hx.1)]
    rw [ih (fun x hx => h x (List.mem_cons_of_mem c hx))]

/-- `collapseNL` copies a newline-free prefix unchanged. -/
theorem collapseNL_copy : ∀ (xs : Str), (∀ c ∈ xs, c ≠ '\n') → ∀ (rest : Str),
    collapseNL (xs ++ rest) = xs ++ collapseNL rest := by
  intro xs
  induction xs with
  | nil => intro _ rest; rfl
  | cons x xs ih =>
    intro h rest
    rw [List.cons_append]
    rw [collapseNL_cons x (xs ++ rest) (fun hx => (h x (List.mem_cons_self x xs)) hx.1)]
    rw [ih (fun c hc => h c (List.mem_cons_of_mem x hc)) rest]
    rfl

/-- `collapseNL` is the identity on the newline-join of normal-form lines. -/
theorem collapseNL_joinNL : ∀ (ls : List Str), (∀ l ∈ ls, LineGood l) →
    collapseNL (joinNL ls) = joinNL ls := by
  intro ls
  induction ls with
  | nil => intro _; rfl
  | cons l r ih =>
    intro hall
    have hl := hall l (List.mem_cons_self l r)
    have hlnl := lineGood_noNL l hl
    cases r with
    | nil =>
      have h1 := collapseNL_copy l hlnl []
      have h0 : collapseNL ([] : Str) = [] := rfl
      rw [h0, List.append_nil] at h1
      exact h1
    | cons l2 r2 =>
      rw [joinNL_eq_cons, collapseNL_copy l hlnl ('\n' :: joinNL (l2 :: r2))]
      have hl2 := hall l2 (List.mem_cons_of_mem l (List.mem_cons_self l2 r2))
      have hhead : ¬(('\n' : Char) = '\n' ∧ (joinNL (l2 :: r2)).head? = some '\n') := by
        rintro ⟨_, hh⟩
        rw [joinNL_headQ (l2 :: r2) (by simp) hl2.1] at hh
        exact lineGood_noNL l2 hl2 '\n' (mem_of_headQ l2 '\n' hh) rfl
      rw [collapseNL_cons '\n' (joinNL (l2 :: r2)) hhead]
      rw [ih (fun x hx => hall x (List.mem_cons_of_mem l hx))]

/-- Scan step of `subA` when the second character is not a newline. -/
theorem subA_cons₂_ne (x y : Char) (z : Str) (hy : y ≠ '\n') :
    subA (x :: y :: z) = x :: subA (y :: z) := by
  have hc : (y = '\n' && isPunctEnd x) = false := by
    simp [hy]
  conv_lhs => unfold subA
  rw [hc]
  simp

/-- Scan step of `subA` at a punctuation-newline pair. -/
theorem subA_punct_nl (x : Char) (z : Str) (hx : isPunctEnd x = true) :
    subA (x :: '\n' :: z) = x :: (PH ++ subA z) := by
  have hc : (('\n' : Char) = '\n' && isPunctEnd x) = true := by
    simp [hx]
  conv_lhs => unfold subA
  rw [hc]
  simp

/-- Scan step of `subA` at a newline not preceded by punctuation. -/
theorem subA_not_punct_nl (x : Char) (z : Str) (hx : isPunctEnd x = false) :
    subA (x :: '\n' :: z) = x :: subA ('\n' :: z) := by
  have hc : (('\n' : Char) = '\n' && isPunctEnd x) = false := by
    simp [hx]
  conv_lhs => unfold subA
  rw [hc]
  simp

/-- `subA` copies a leading newline: the newline is never punctuation. -/
theorem subA_nl (w : Str) : subA ('\n' :: w) = '\n' :: subA w := by
  cases w with
  | nil => rfl
  | cons y z =>
    have hp : isPunctEnd '\n' = false := by decide
    have hc : (y = '\n' && isPunctEnd '\n') = false := by
      rw [hp, Bool.and_false]
    conv_lhs => unfold subA
    rw [hc]
    simp

/-- `subA` copies a newline-free prefix when the continuation does not start
with a newline. -/
theorem subA_copy : ∀ (xs : Str), (∀ c ∈ xs, c ≠ '\n') → ∀ (rest : Str),
    (∀ c, rest.head? = some c → c ≠ '\n') → subA (xs ++ rest) = xs ++ subA rest := by
  intro xs
  induction xs with
  | nil => intro _ rest _; rfl
  | cons x xs ih =>
    intro hx rest hr
    have hx2 : ∀ c ∈ xs, c ≠ '\n' := fun c hc => hx c (List.mem_cons_of_mem x hc)
    rw [List.cons_append]
    cases hxr : xs ++ rest with
    | nil =>
      rcases List.append_eq_nil.mp hxr with ⟨h1, h2⟩
      subst h1
      subst h2
      rfl
    | cons y z =>
      have hy : y ≠ '\n' := by
        cases xs with
        | nil =>
          simp only [List.nil_append] at hxr
          refine hr y ?_
          rw [hxr]
          rfl
        | cons x2 xs2 =>
          simp only [List.cons_append] at hxr
          injection hxr with h1 _
          rw [← h1]
          exact hx2 x2 (List.mem_cons_self x2 xs2)
      calc subA (x :: y :: z) = x :: subA (y :: z) := subA_cons₂_ne x y z hy
        _ = x :: subA (xs ++ rest) := by rw [← hxr]
        _ = x :: (xs ++ subA rest) := by rw [ih hx2 rest hr]

/-- The end-punctuation test after appending a final character. -/
theorem endsPunct_concat (init : Str) (c : Char) :
    endsPunct (init ++ [c]) = isPunctEnd c := by
  unfold endsPunct
  rw [getLast?_append_ne init [c] (by simp)]
  have h1 : ([c] : Str).getLast? = some c := by simp
  rw [h1]

/-- The end-punctuation test from a concrete last character. -/
theorem endsPunct_eq_true_of (l : Str) (c : Char) (hlast : l.getLast? = some c)
    (hp : isPunctEnd c = true) : endsPunct l = true := by
  unfold endsPunct
  rw [hlast]
  exact hp

/-- Step A on the newline-join of normal-form lines replaces exactly the
punctuation-preceded newlines by placeholder blocks. -/
theorem subA_joinNL : ∀ (ls : List Str), (∀ l ∈ ls, LineGood l) →
    subA (joinNL ls) = joinA ls := by
  intro ls
  induction ls with
  | nil => intro _; rfl
  | cons l r ih =>
    intro hall
    have hl := hall l (List.mem_cons_self l r)
    have hlnl := lineGood_noNL l hl
    cases r with
    | nil =>
      have h1 := subA_copy l hlnl [] (by intro c hc; exact absurd hc (by simp))
      have h0 : subA ([] : Str) = [] := rfl
      rw [h0, List.append_nil] at h1
      exact h1
    | cons l2 r2 =>
      rcases List.eq_nil_or_concat l with rfl | ⟨init, lastc, hdec⟩
      · exact absurd rfl hl.1
      rw [List.concat_eq_append] at hdec
      subst hdec
      rw [joinNL_eq_cons, List.append_assoc, List.singleton_append]
      have hinitnl : ∀ c ∈ init, c ≠ '\n' :=
        fun c hc => hlnl c (List.mem_append.mpr (Or.inl hc))
      have hlast_ne : lastc ≠ '\n' :=
        hlnl lastc (List.mem_append.mpr (Or.inr (by simp)))
      rw [subA_copy init hinitnl (lastc :: '\n' :: joinNL (l2 :: r2))
        (by
          intro c hc
          have h1 : lastc = c := by simpa using hc
          rw [← h1]
          exact hlast_ne)]
      have hih := ih (fun x hx => hall x (List.mem_cons_of_mem _ hx))
      by_cases hp : isPunctEnd lastc = true
      · rw [subA_punct_nl lastc _ hp, hih]
        rw [joinA_eq_cons, endsPunct_concat init lastc, hp]
        simp
      · have hp2 : isPunctEnd lastc = false := by
          cases hx : isPunctEnd lastc with
          | false => rfl
          | true => exact absurd hx hp
        rw [subA_not_punct_nl lastc _ hp2, subA_nl, hih]
        rw [joinA_eq_cons, endsPunct_concat init lastc, hp2]
        simp

/-- `takeWhile` stops exactly at the first failing character. -/
theorem takeWhile_middle (p : Char → Bool) :
    ∀ (run : Str), (∀ x ∈ run, p x = true) → ∀ (s : Char), p s = false → ∀ (rest : Str),
      (run ++ s :: rest).takeWhile p = run := by
  intro run
  induction run with
  | nil =>
    intro _ s hs rest
    simp [List.takeWhile_cons, hs]
  | cons x run ih =>
    intro hrun s hs rest
    have hx : p x = true := hrun x (List.mem_cons_self x run)
    rw [List.cons_append, List.takeWhile_cons, hx]
    simp only [if_true]
    rw [ih (fun y hy => hrun y (List.mem_cons_of_mem x hy)) s hs rest]

/-- Step B's lookahead recognizes every enumeration marker and consumes
exactly the marker, whatever follows it. -/
theorem tryMarker_marker (m : Str) (hm : IsMarker m) (rest : Str) :
    tryMarker (m ++ rest) = some m.length := by
  rcases hm with ⟨c, run, s, rfl, hc, hrun, hs⟩ | ⟨c, run, s, rfl, hc, hrne, hrun, hs⟩
  · have hassoc : (c :: run ++ [s]) ++ rest = c :: (run ++ s :: rest) := by
      simp
    rw [hassoc]
    unfold tryMarker
    have hws : (c :: (run ++ s :: rest)).takeWhile isWS = [] := by
      simp [List.takeWhile_cons, isNumChar_not_ws c hc]
    rw [hws]
    simp only [List.length_nil, List.drop_zero]
    rw [hc]
    simp only [if_true]
    have htw : (run ++ s :: rest).takeWhile isNumChar = run :=
      takeWhile_middle isNumChar run hrun s (isSepDot_facts s hs).2.2.2.1 rest
    rw [htw, List.drop_left]
    simp only [hs, if_true]
    congr 1
    simp only [List.length_cons, List.length_append, List.length_nil]
    omega
  · have hassoc : (c :: run ++ [s]) ++ rest = c :: (run ++ s :: rest) := by
      simp
    rw [hassoc]
    unfold tryMarker
    have hws : (c :: (run ++ s :: rest)).takeWhile isWS = [] := by
      simp [List.takeWhile_cons, (isOpenBr_facts c hc).1]
    rw [hws]
    simp only [List.length_nil, List.drop_zero]
    have hcnum : isNumChar c = false := (isOpenBr_facts c hc).2.2.2.1
    rw [hcnum, hc]
    simp only [Bool.false_eq_true, if_false, if_true]
    have htw : (run ++ s :: rest).takeWhile isNumChar = run :=
      takeWhile_middle isNumChar run hrun s (isCloseBr_facts s hs).2.2.2.1 rest
    rw [htw]
    rw [if_neg (by simpa using hrne)]
    rw [List.drop_left]
    simp only [hs, if_true]
    congr 1
    simp only [List.length_cons, List.length_append, List.length_nil]
    omega

/-- Step B on the step-A image of normal-form lines rewrites the remaining
newlines (all followed by markers) into placeholder blocks. -/
theorem subB_joinA : ∀ (ls : List Str), (∀ l ∈ ls, LineGood l) → List.Chain' RelNL ls →
    subB (joinA ls) = joinPH ls := by
  intro ls
  induction ls with
  | nil => intro _ _; rfl
  | cons l r ih =>
    intro hall hchain
    have hl := hall l (List.mem_cons_self l r)
    have hlnl := lineGood_noNL l hl
    cases r with
    | nil =>
      show subBgo l 0 = l
      have h1 := subBgo_copy l hlnl []
      have h0 : subBgo ([] : Str) 0 = [] := rfl
      rw [h0, List.append_nil] at h1
      exact h1
    | cons l2 r2 =>
      rw [List.chain'_cons] at hchain
      obtain ⟨hrel, hchain2⟩ := hchain
      have hih := ih (fun x hx => hall x (List.mem_cons_of_mem _ hx)) hchain2
      rw [joinA_eq_cons]
      by_cases hp : endsPunct l = true
      · rw [if_pos hp]
        unfold subB
        rw [subBgo_copy l hlnl (PH ++ joinA (l2 :: r2))]
        rw [subBgo_copy PH PH_facts.1 (joinA (l2 :: r2))]
        show l ++ (PH ++ subB (joinA (l2 :: r2))) = joinPH (l :: l2 :: r2)
        rw [hih, joinPH_eq_cons]
      · rw [if_neg hp]
        rcases hrel with ⟨c, hlast, hpc⟩ | hsm
        · exact absurd (endsPunct_eq_true_of l c hlast hpc) hp
        obtain ⟨m, mrest, hdec, hm⟩ := hsm
        have hmnl : ∀ x ∈ m, x ≠ '\n' := fun x hx => ((IsMarker_facts m hm).2 x hx).1
        obtain ⟨A, hA⟩ : ∃ A, joinA (l2 :: r2) = l2 ++ A := by
          cases r2 with
          | nil => exact ⟨[], by simp [joinA]⟩
          | cons l3 r3 => exact ⟨_, joinA_eq_cons l2 l3 r3⟩
        have hXm : joinA (l2 :: r2) = m ++ (mrest ++ A) := by
          rw [hA, hdec, List.append_assoc]
        have hkey : m ++ subBgo (mrest ++ A) 0 = joinPH (l2 :: r2) := by
          have h1 : subB (joinA (l2 :: r2)) = m ++ subBgo (mrest ++ A) 0 := by
            show subBgo (joinA (l2 :: r2)) 0 = m ++ subBgo (mrest ++ A) 0
            rw [hXm]
            exact subBgo_copy m hmnl (mrest ++ A)
          rw [← h1, hih]
        unfold subB
        rw [subBgo_copy l hlnl ('\n' :: joinA (l2 :: r2))]
        rw [subBgo_cons_nl]
        rw [hXm]
        rw [tryMarker_marker m hm (mrest ++ A)]
        show l ++ (PH ++ subBgo (m ++ (mrest ++ A)) m.length) = joinPH (l :: l2 :: r2)
        rw [subBgo_skip (m ++ (mrest ++ A)) m.length]
        rw [List.take_left, List.drop_left]
        rw [joinPH_eq_cons, ← hkey]

/-- The placeholder-join of normal-form lines contains no newline. -/
theorem dropNL_joinPH (ls : List Str) (hall : ∀ l ∈ ls, LineGood l) :
    dropNL (joinPH ls) = joinPH ls := by
  refine dropNL_of_noNL _ ?_
  intro c hc
  rcases mem_joinPH ls c hc with ⟨l0, hl0, hcl⟩ | hph
  · exact lineGood_noNL l0 (hall l0 hl0) c hcl
  · exact PH_facts.1 c hph

/-- Restoring the placeholders of the placeholder-join yields the
newline-join. -/
theorem restorePH_joinPH : ∀ (ls : List Str), (∀ l ∈ ls, LineGood l) →
    restorePH (joinPH ls) = joinNL ls := by
  intro ls
  induction ls with
  | nil => intro _; rfl
  | cons l r ih =>
    intro hall
    have hl := hall l (List.mem_cons_self l r)
    have hlbr := lineGood_noBr l hl
    cases r with
    | nil =>
      show restoreGo l 0 = l
      have h1 := restoreGo_copy l hlbr []
      have h0 : restoreGo ([] : Str) 0 = [] := rfl
      rw [h0, List.append_nil] at h1
      exact h1
    | cons l2 r2 =>
      rw [joinPH_eq_cons]
      unfold restorePH
      rw [restoreGo_copy l hlbr (PH ++ joinPH (l2 :: r2))]
      rw [restoreGo_PH]
      show l ++ '\n' :: restorePH (joinPH (l2 :: r2)) = joinNL (l :: l2 :: r2)
      rw [ih (fun x hx => hall x (List.mem_cons_of_mem _ hx)), joinNL_eq_cons]

/-- Splitting the newline-join of newline-free lines recovers the lines. -/
theorem splitNL_joinNL : ∀ (ls : List Str), ls ≠ [] → (∀ l ∈ ls, LineGood l) →
    splitNL (joinNL ls) = ls := by
  intro ls
  induction ls with
  | nil => intro h _; exact absurd rfl h
  | cons l r ih =>
    intro _ hall
    have hl := hall l (List.mem_cons_self l r)
    have hlnl := lineGood_noNL l hl
    cases r with
    | nil =>
      have h1 := splitNL_prepend l hlnl []
      show splitNL l = [l]
      rw [List.append_nil] at h1
      rw [h1]
      simp [splitNL]
    | cons l2 r2 =>
      rw [joinNL_eq_cons, splitNL_prepend l hlnl ('\n' :: joinNL (l2 :: r2))]
      have h2 : splitNL ('\n' :: joinNL (l2 :: r2)) = [] :: splitNL (joinNL (l2 :: r2)) := rfl
      rw [h2, ih (by simp) (fun x hx => hall x (List.mem_cons_of_mem _ hx))]
      simp

/-- The per-line cleanup is the identity on normal-form lines. -/
theorem cleanLines_id : ∀ (ls : List Str), (∀ l ∈ ls, LineGood l) → cleanLines ls = ls := by
  intro ls
  induction ls with
  | nil => intro _; rfl
  | cons l r ih =>
    intro hall
    have hl := hall l (List.mem_cons_self l r)
    have h1 : removeWS l = l := removeWS_noWS l (fun c hc => (hl.2 c hc).1)
    rw [cleanLines_cons, h1, if_neg hl.1, ih (fun x hx => hall x (List.mem_cons_of_mem _ hx))]

/-- The newline-join of normal-form lines has no surrounding whitespace. -/
theorem trimWS_joinNL (ls : List Str) (h : ls ≠ []) (hall : ∀ l ∈ ls, LineGood l) :
    trimWS (joinNL ls) = joinNL ls := by
  have hmem : ls.headI ∈ ls := by
    cases ls with
    | nil => exact absurd rfl h
    | cons a b => exact List.mem_cons_self a b
  refine trimWS_eq_self _ ?_ ?_
  · intro c hc
    rw [joinNL_headQ ls h (hall ls.headI hmem).1] at hc
    exact ((hall ls.headI hmem).2 c (mem_of_headQ ls.headI c hc)).1
  · intro c hc
    obtain ⟨l0, hl0, hcl⟩ := joinNL_getLastQ ls (fun l hl => (hall l hl).1) c hc
    exact ((hall l0 hl0).2 c hcl).1

/-- The newline-join of normal-form lines has no carriage return. -/
theorem replCRLF_joinNL (ls : List Str) (hall : ∀ l ∈ ls, LineGood l) :
    replCRLF (joinNL ls) = joinNL ls := by
  refine replCRLF_of_noCR _ ?_
  intro c hc
  rcases mem_joinNL ls c hc with ⟨l0, hl0, hcl⟩ | rfl
  · intro hx
    subst hx
    exact absurd ((hall l0 hl0).2 '\r' hcl).1 (by decide)
  · decide

/-- `smart_merge` is the identity on the newline-join of a normal form. -/
theorem smart_merge_joinNL (ls : List Str) (h : NormalLines ls) :
    smart_merge (joinNL ls) = joinNL ls := by
  obtain ⟨hgood, hchain⟩ := h
  cases ls with
  | nil => rfl
  | cons l r =>
    have hne : joinNL (l :: r) ≠ [] :=
      joinNL_ne_nil (l :: r) (by simp) (hgood l (List.mem_cons_self l r)).1
    unfold smart_merge
    rw [if_neg hne]
    rw [trimWS_joinNL (l :: r) (by simp) hgood]
    rw [replCRLF_joinNL (l :: r) hgood]
    rw [collapseNL_joinNL (l :: r) hgood]
    rw [subA_joinNL (l :: r) hgood]
    rw [subB_joinA (l :: r) hgood hchain]
    rw [dropNL_joinPH (l :: r) hgood]
    rw [restorePH_joinPH (l :: r) hgood]
    rw [splitNL_joinNL (l :: r) (by simp) hgood]
    rw [cleanLines_id (l :: r) hgood]

/-- C3 counterexample: `smart_merge` is not idempotent on all inputs.  For
the input `甲[LOGICAL_NL]乙`, containing the literal placeholder, the first
pass restores the placeholder to a newline whose boundary carries neither
sentence-final punctuation nor an enumeration marker, so the second pass
merges the two lines into one. -/
theorem C3_counterexample :
    smart_merge (smart_merge (("甲[LOGICAL_NL]乙").data)) ≠
      smart_merge (("甲[LOGICAL_NL]乙").data) := by
  decide

/-- C3 amended: the Paragraph Folder `smart_merge` is idempotent on every
input that does not contain the character `[` (in particular on any input
free of the literal placeholder `[LOGICAL_NL]`): folding already-folded such
text is a no-op. -/
theorem C3_idempotent_no_bracket (s : Str) (h : '[' ∉ s) :
    smart_merge (smart_merge s) = smart_merge s := by
  obtain ⟨ls, hnl, heq⟩ := smart_merge_normal s h
  rw [heq]
  exact smart_merge_joinNL ls hnl

/-- C3 witness: the amended idempotence theorem applied to the concrete
bracket-free input `甲。\n1、乙`. -/
theorem C3_idempotent_no_bracket_witness :
    ('[' ∉ ("甲。\n1、乙").data) ∧
      smart_merge (smart_merge (("甲。\n1、乙").data)) = smart_merge (("甲。\n1、乙").data) :=
  ⟨by decide, C3_idempotent_no_bracket (("甲。\n1、乙").data) (by decide)⟩

/-- C10 witness: the unequal-count theorem applied to one text record with
empty defendant and empty id against two OCR records, the first of which
describes a different defendant; the text record still receives the first
OCR record's id number. -/
theorem C10_empty_name_first_ocr_witness :
    ((⟨("张三").data, ("11").data, [], []⟩ : CaseRecord) ::
        (⟨("李四").data, ("22").data, [], []⟩ : CaseRecord) :: [] ≠ []) ∧
      ((⟨[], [], ("求").data, []⟩ : CaseRecord) :: [] ≠ []) ∧
      (((⟨[], [], ("求").data, []⟩ : CaseRecord) :: []).length ≠
        ((⟨("张三").data, ("11").data, [], []⟩ : CaseRecord) ::
          (⟨("李四").data, ("22").data, [], []⟩ : CaseRecord) :: []).length) ∧
      ((⟨[], [], ("求").data, []⟩ : CaseRecord) ∈
        (⟨[], [], ("求").data, []⟩ : CaseRecord) :: []) ∧
      ((⟨[], [], ("求").data, []⟩ : CaseRecord).defendant = []) ∧
      ((⟨[], [], ("求").data, []⟩ : CaseRecord).idNumber = []) ∧
      ((⟨[], ("11").data, ("求").data, []⟩ : CaseRecord) ∈
        merge_records ((⟨[], [], ("求").data, []⟩ : CaseRecord) :: [])
          ((⟨("张三").data, ("11").data, [], []⟩ : CaseRecord) ::
            (⟨("李四").data, ("22").data, [], []⟩ : CaseRecord) :: [])) :=
  ⟨by decide, by decide, by decide, by decide, by decide, by decide,
    C10_empty_name_first_ocr ((⟨[], [], ("求").data, []⟩ : CaseRecord) :: [])
      ((⟨("张三").data, ("11").data, [], []⟩ : CaseRecord) ::
        (⟨("李四").data, ("22").data, [], []⟩ : CaseRecord) :: [])
      (⟨[], [], ("求").data, []⟩ : CaseRecord) (by decide) (by decide) (by decide)
      (by decide) (by decide) (by decide)⟩
